import Mathlib

/-!
Verification of the `pathTree` component of the sally repository
(src/path_tree.go), a hierarchical `/`-delimited path tree with
longest-match lookup and subtree enumeration.

Paths are modelled as `List Char` (Go strings are byte slices; the
separator `/` is ASCII, so byte-level splitting and character-level
splitting coincide).  Children maps (`map[string]*pathTreeNode[T]`) are
modelled as association lists keyed by the child's `name`; iteration
order over children, which Go leaves unspecified, is fixed to the list
order.  All functions are translated directly from the Go source.
-/

set_option maxHeartbeats 1000000

/-- Converts a string literal to the `List Char` path representation. -/
def str (s : String) : List Char := s.toList

/-- `pathTakeFirst` (src/path_tree.go:178): splits off the first
path component.  `strings.IndexByte(p, '/')` finds the first separator;
without one, the whole string is the head and the tail is empty. -/
def pathTakeFirst : List Char → List Char × List Char
  | [] => ([], [])
  | c :: rest =>
    if c = '/' then ([], rest)
    else
      let ht := pathTakeFirst rest
      (c :: ht.1, ht.2)

/-- The remainder returned by `pathTakeFirst` never grows. -/
theorem takeFirst_snd_le : ∀ p : List Char, (pathTakeFirst p).2.length ≤ p.length := by
  intro p
  induction p with
  | nil => simp [pathTakeFirst]
  | cons c rest ih =>
    simp only [pathTakeFirst]
    split
    · simp
    · simpa using Nat.le_succ_of_le ih

/-- On a non-empty path the remainder returned by `pathTakeFirst` is
strictly shorter: the component-consuming loops terminate. -/
theorem takeFirst_snd_lt (p : List Char) (hp : p ≠ []) :
    (pathTakeFirst p).2.length < p.length := by
  match p with
  | [] => exact absurd rfl hp
  | c :: rest =>
    simp only [pathTakeFirst]
    split
    · simp
    · simpa using Nat.lt_succ_of_le (takeFirst_snd_le rest)

/-- The `/`-delimited components of a path, obtained by repeatedly
applying `pathTakeFirst` exactly as the Go loops do.  The empty path
yields no components (the loops do not run). -/
def pathComponents (p : List Char) : List (List Char) :=
  if hp : p = [] then []
  else (pathTakeFirst p).1 :: pathComponents (pathTakeFirst p).2
termination_by p.length
decreasing_by exact takeFirst_snd_lt p hp

/-- `pathTreeNode` (src/path_tree.go:65): a single node of a
`pathTree`, holding the component `name`, the stored full `path`, the
optional explicit `value` (`*T` in Go), and the children.  The Go
`map[string]*pathTreeNode[T]` keyed by name becomes a list of nodes
looked up by their `name` field. -/
inductive pathTreeNode (T : Type) : Type where
  | mk : List Char → List Char → Option T → List (pathTreeNode T) → pathTreeNode T

/-- The single path component this node represents. -/
def pathTreeNode.name {T : Type} : pathTreeNode T → List Char
  | .mk nm _ _ _ => nm

/-- The full path stored for this node (`path` field in Go). -/
def pathTreeNode.path {T : Type} : pathTreeNode T → List Char
  | .mk _ pa _ _ => pa

/-- The explicit value of this node, if any. -/
def pathTreeNode.value {T : Type} : pathTreeNode T → Option T
  | .mk _ _ v _ => v

/-- The direct descendants of this node. -/
def pathTreeNode.children {T : Type} : pathTreeNode T → List (pathTreeNode T)
  | .mk _ _ _ ch => ch

/-- `n.children[head]`: the child with the given name, if present. -/
def findChild {T : Type} (l : List (pathTreeNode T)) (h : List Char) :
    Option (pathTreeNode T) :=
  l.find? (fun c => decide (c.name = h))

/-- `n.children[head] = ch`: map update, replacing the entry with the
given name or adding a new one. -/
def upsertChild {T : Type} (l : List (pathTreeNode T)) (h : List Char)
    (x : pathTreeNode T) : List (pathTreeNode T) :=
  match l with
  | [] => [x]
  | c :: cs => if c.name = h then x :: cs else c :: upsertChild cs h x

/-- `ch, ok := n.children[head]; if !ok { ch = &pathTreeNode{...} }`
(src/path_tree.go:110-117): the node `set` descends into — the existing
child, or a fresh node with `path = origPath[:curPathLen]`. -/
def childStart {T : Type} (ch : List (pathTreeNode T)) (head : List Char)
    (orig : List Char) (cur' : Nat) : pathTreeNode T :=
  match findChild ch head with
  | some c => c
  | none => pathTreeNode.mk head (orig.take cur') none []

/-- `curPathLen` after one loop iteration (src/path_tree.go:101-104):
add one for the preceding separator only when `curPathLen > 0`, then
the length of the head component. -/
def nextCur (cur : Nat) (head : List Char) : Nat :=
  (if 0 < cur then cur + 1 else cur) + head.length

/-- `pathTreeNode.set` (src/path_tree.go:86), with the loop state made
explicit: `orig` is `origPath`, `cur` is `curPathLen`.  Descends one
component at a time, creating missing nodes with
`path = origPath[:curPathLen]`, and sets the value at the final node. -/
def pathTreeNode.setAux {T : Type} (orig : List Char) (cur : Nat)
    (n : pathTreeNode T) (p : List Char) (v : T) : pathTreeNode T :=
  if hp : p = [] then
    pathTreeNode.mk n.name n.path (some v) n.children
  else
    let head := (pathTakeFirst p).1
    let tail := (pathTakeFirst p).2
    pathTreeNode.mk n.name n.path n.value
      (upsertChild n.children head
        (pathTreeNode.setAux orig (nextCur cur head)
          (childStart n.children head orig (nextCur cur head)) tail v))
termination_by p.length
decreasing_by exact takeFirst_snd_lt p hp

/-- `pathTreeNode.set` (src/path_tree.go:86): Go signature, starting
with `origPath = path` and `curPathLen = 0`. -/
def pathTreeNode.set {T : Type} (n : pathTreeNode T) (p : List Char) (v : T) :
    pathTreeNode T :=
  pathTreeNode.setAux p 0 n p v

/-- `pathTreeNode.lookup` (src/path_tree.go:127), with the `last`
accumulator made explicit: walks the path, remembering the deepest node
with a non-nil value; stops when the path is consumed or a child is
missing. -/
def pathTreeNode.lookupAux {T : Type} (n : pathTreeNode T) (p : List Char)
    (last : Option (pathTreeNode T)) : Option (pathTreeNode T) :=
  let last' := if n.value.isSome then some n else last
  if hp : p = [] then last'
  else
    match findChild n.children (pathTakeFirst p).1 with
    | none => last'
    | some c => pathTreeNode.lookupAux c (pathTakeFirst p).2 last'
termination_by p.length
decreasing_by exact takeFirst_snd_lt p hp

/-- `pathTreeNode.lookup` (src/path_tree.go:127): Go signature
(`last` starts out nil). -/
def pathTreeNode.lookup {T : Type} (n : pathTreeNode T) (p : List Char) :
    Option (pathTreeNode T) :=
  pathTreeNode.lookupAux n p none

/-- `pathTreeNode.get` (src/path_tree.go:146): walks the path by exact
component matching; `none` as soon as a child is missing. -/
def pathTreeNode.get {T : Type} (n : pathTreeNode T) (p : List Char) :
    Option (pathTreeNode T) :=
  if hp : p = [] then some n
  else
    match findChild n.children (pathTakeFirst p).1 with
    | none => none
    | some c => pathTreeNode.get c (pathTakeFirst p).2
termination_by p.length
decreasing_by exact takeFirst_snd_lt p hp

mutual
/-- The `(path, value)` entries of the subtree rooted at `n`, in
visit order (the node before its descendants, exactly as the
stack-based loop of `pathTreeNode.listByPath`, src/path_tree.go:157,
emits them; sibling order, unspecified for a Go map, is fixed to the
child-list order). -/
def collectNode {T : Type} : pathTreeNode T → List (List Char × T)
  | .mk _ pa val ch =>
    (match val with
     | some v => [(pa, v)]
     | none => []) ++ collectList ch
/-- `collectNode` mapped over a list of nodes. -/
def collectList {T : Type} : List (pathTreeNode T) → List (List Char × T)
  | [] => []
  | c :: cs => collectNode c ++ collectList cs
end

/-- Inserting into the result map (`items[n.path] = *n.value`):
replaces an existing entry with the same key, else appends. -/
def mapInsert {T : Type} (m : List (List Char × T)) (k : List Char) (v : T) :
    List (List Char × T) :=
  match m with
  | [] => [(k, v)]
  | e :: es => if e.1 = k then (k, v) :: es else e :: mapInsert es k v

/-- The result map built by inserting entries in traversal order. -/
def buildMap {T : Type} (l : List (List Char × T)) : List (List Char × T) :=
  l.foldl (fun m e => mapInsert m e.1 e.2) []

/-- Association-map lookup on the result of `buildMap`. -/
def lookupA {T : Type} (m : List (List Char × T)) (k : List Char) : Option T :=
  (m.find? (fun e => decide (e.1 = k))).map (·.2)

/-- `pathTree` (src/path_tree.go:13): the public handle, holding the
root node and the approximate count of explicit values. -/
structure pathTree (T : Type) where
  root : pathTreeNode T
  countHint : Nat

/-- The zero value of `pathTree`: an empty root node, count 0. -/
def pathTree.empty {T : Type} : pathTree T :=
  ⟨pathTreeNode.mk [] [] none [], 0⟩

/-- `pathTree.Set` (src/path_tree.go:25): bumps the count hint and
writes the value at the path. -/
def pathTree.Set {T : Type} (t : pathTree T) (p : List Char) (v : T) :
    pathTree T :=
  ⟨t.root.set p v, t.countHint + 1⟩

/-- `pathTree.Lookup` (src/path_tree.go:38): runs the node lookup and
returns the matched node's stored path and value, or `none`
(`found = false`) when no node on the path carries a value. -/
def pathTree.Lookup {T : Type} (t : pathTree T) (p : List Char) :
    Option (List Char × T) :=
  match t.root.lookup p with
  | none => none
  | some n =>
    match n.value with
    | none => none
    | some v => some (n.path, v)

/-- The node `ListByPath` starts from: the root for the empty path,
otherwise the node found by `get` (src/path_tree.go:50-53). -/
def pathTree.locate {T : Type} (t : pathTree T) (p : List Char) :
    Option (pathTreeNode T) :=
  if p = [] then some t.root else t.root.get p

/-- `pathTree.ListByPath` (src/path_tree.go:49): locates the node at
the path (the root for the empty path), returns the empty map when it
is missing, otherwise the map collecting the subtree's values keyed by
stored path (Go's nil map and empty map are both the empty list here). -/
def pathTree.ListByPath {T : Type} (t : pathTree T) (p : List Char) :
    List (List Char × T) :=
  match t.locate p with
  | none => []
  | some n => buildMap (collectNode n)

/-- The tree obtained from the zero-value tree by a finite sequence of
`Set` (spec: `Assign`) calls. -/
def buildTree {T : Type} (ops : List (List Char × T)) : pathTree T :=
  ops.foldl (fun t e => t.Set e.1 e.2) pathTree.empty

/-- Descends from a node along a list of component names. -/
def nodeAt {T : Type} (n : pathTreeNode T) : List (List Char) → Option (pathTreeNode T)
  | [] => some n
  | c :: cs =>
    match findChild n.children c with
    | none => none
    | some m => nodeAt m cs

/-- The explicit value stored at the given component address. -/
def valueAt {T : Type} (t : pathTree T) (cs : List (List Char)) : Option T :=
  (nodeAt t.root cs).bind pathTreeNode.value

/-- Joins component names with the `/` separator (the inverse direction
of `pathComponents`, used to state the full-path invariants). -/
def joinPath : List (List Char) → List Char
  | [] => []
  | [c] => c
  | c :: cs => c ++ '/' :: joinPath cs

/-! ## Step lemmas: one loop iteration of each Go function -/

/-- Accessor equations for `pathTreeNode.mk`. -/
@[simp]
theorem pathTreeNode.name_mk {T : Type} (nm pa : List Char) (v : Option T)
    (ch : List (pathTreeNode T)) : (pathTreeNode.mk nm pa v ch).name = nm := rfl

@[simp]
theorem pathTreeNode.path_mk {T : Type} (nm pa : List Char) (v : Option T)
    (ch : List (pathTreeNode T)) : (pathTreeNode.mk nm pa v ch).path = pa := rfl

@[simp]
theorem pathTreeNode.value_mk {T : Type} (nm pa : List Char) (v : Option T)
    (ch : List (pathTreeNode T)) : (pathTreeNode.mk nm pa v ch).value = v := rfl

@[simp]
theorem pathTreeNode.children_mk {T : Type} (nm pa : List Char) (v : Option T)
    (ch : List (pathTreeNode T)) : (pathTreeNode.mk nm pa v ch).children = ch := rfl

/-- A node equals the constructor applied to its fields. -/
theorem pathTreeNode.eta {T : Type} (n : pathTreeNode T) :
    n = pathTreeNode.mk n.name n.path n.value n.children := by
  cases n <;> rfl

theorem setAux_nil {T : Type} (orig : List Char) (cur : Nat)
    (n : pathTreeNode T) (v : T) :
    pathTreeNode.setAux orig cur n [] v =
      pathTreeNode.mk n.name n.path (some v) n.children := by
  rw [pathTreeNode.setAux]
  simp

theorem setAux_cons {T : Type} (orig : List Char) (cur : Nat)
    (n : pathTreeNode T) (p : List Char) (v : T) (hp : p ≠ []) :
    pathTreeNode.setAux orig cur n p v =
      pathTreeNode.mk n.name n.path n.value
        (upsertChild n.children (pathTakeFirst p).1
          (pathTreeNode.setAux orig (nextCur cur (pathTakeFirst p).1)
            (childStart n.children (pathTakeFirst p).1 orig
              (nextCur cur (pathTakeFirst p).1)) (pathTakeFirst p).2 v)) := by
  rw [pathTreeNode.setAux]
  simp [hp]

theorem lookupAux_nil {T : Type} (n : pathTreeNode T)
    (last : Option (pathTreeNode T)) :
    pathTreeNode.lookupAux n [] last =
      (if n.value.isSome then some n else last) := by
  rw [pathTreeNode.lookupAux]
  simp

theorem lookupAux_cons {T : Type} (n : pathTreeNode T) (p : List Char)
    (last : Option (pathTreeNode T)) (hp : p ≠ []) :
    pathTreeNode.lookupAux n p last =
      (match findChild n.children (pathTakeFirst p).1 with
       | none => (if n.value.isSome then some n else last)
       | some c => pathTreeNode.lookupAux c (pathTakeFirst p).2
           (if n.value.isSome then some n else last)) := by
  rw [pathTreeNode.lookupAux]
  simp [hp]

theorem get_nil {T : Type} (n : pathTreeNode T) :
    pathTreeNode.get n [] = some n := by
  rw [pathTreeNode.get]
  simp

theorem get_cons {T : Type} (n : pathTreeNode T) (p : List Char) (hp : p ≠ []) :
    pathTreeNode.get n p =
      (match findChild n.children (pathTakeFirst p).1 with
       | none => none
       | some c => pathTreeNode.get c (pathTakeFirst p).2) := by
  rw [pathTreeNode.get]
  simp [hp]

theorem pathComponents_nil : pathComponents [] = [] := by
  rw [pathComponents]
  simp

theorem pathComponents_cons (p : List Char) (hp : p ≠ []) :
    pathComponents p = (pathTakeFirst p).1 :: pathComponents (pathTakeFirst p).2 := by
  rw [pathComponents]
  simp [hp]

/-! ## `pathTakeFirst` characterization -/

/-- A path with no separator is a single head with empty tail. -/
theorem takeFirst_no_slash (p : List Char) (h : '/' ∉ p) :
    pathTakeFirst p = (p, []) := by
  induction p with
  | nil => rfl
  | cons c rest ih =>
    simp only [List.mem_cons, not_or] at h
    simp only [pathTakeFirst]
    rw [if_neg (fun hc => h.1 hc.symm)]
    rw [ih h.2]

/-- A path containing a separator splits as
`head ++ '/' :: tail` with no separator in the head. -/
theorem takeFirst_split (p : List Char) (h : '/' ∈ p) :
    p = (pathTakeFirst p).1 ++ '/' :: (pathTakeFirst p).2 ∧
      '/' ∉ (pathTakeFirst p).1 := by
  induction p with
  | nil => cases h
  | cons c rest ih =>
    by_cases hc : c = '/'
    · subst hc
      simp [pathTakeFirst]
    · have hrest : '/' ∈ rest := by
        rcases List.mem_cons.mp h with h1 | h2
        · exact absurd h1.symm hc
        · exact h2
      obtain ⟨ih1, ih2⟩ := ih hrest
      constructor
      · simp only [pathTakeFirst, if_neg hc]
        exact congrArg (c :: ·) ih1
      · simp only [pathTakeFirst, if_neg hc]
        simp only [List.mem_cons, not_or]
        exact ⟨fun hx => hc hx.symm, ih2⟩

/-- Appending to a path with a separator appends to the tail. -/
theorem takeFirst_append (p s : List Char) (h : '/' ∈ p) :
    pathTakeFirst (p ++ s) = ((pathTakeFirst p).1, (pathTakeFirst p).2 ++ s) := by
  induction p with
  | nil => cases h
  | cons c rest ih =>
    by_cases hc : c = '/'
    · subst hc
      simp [pathTakeFirst]
    · have hrest : '/' ∈ rest := by
        rcases List.mem_cons.mp h with h1 | h2
        · exact absurd h1.symm hc
        · exact h2
      simp only [List.cons_append, pathTakeFirst, if_neg hc, List.append_eq, ih hrest]

/-- Appending a trailing separator to a separator-free non-empty path
leaves splitting unchanged. -/
theorem takeFirst_append_slash_no_slash (p : List Char) (h : '/' ∉ p) :
    pathTakeFirst (p ++ ['/']) = (p, []) := by
  induction p with
  | nil => simp [pathTakeFirst]
  | cons c rest ih =>
    simp only [List.mem_cons, not_or] at h
    simp only [List.cons_append, pathTakeFirst, List.append_eq]
    rw [if_neg (fun hc => h.1 hc.symm), ih h.2]

/-- Generalization: a separator-free head followed by `'/' :: s`
splits as `(head, s)`. -/
theorem takeFirst_no_slash_sep (a s : List Char) (h : '/' ∉ a) :
    pathTakeFirst (a ++ '/' :: s) = (a, s) := by
  induction a with
  | nil => simp [pathTakeFirst]
  | cons c rest ih =>
    simp only [List.mem_cons, not_or] at h
    simp only [List.cons_append, pathTakeFirst, List.append_eq]
    rw [if_neg (fun hc => h.1 hc.symm), ih h.2]

/-! ## `pathComponents` lemmas -/

/-- A non-empty path has a non-empty component list. -/
theorem pathComponents_ne_nil (p : List Char) (hp : p ≠ []) :
    pathComponents p ≠ [] := by
  rw [pathComponents_cons p hp]
  simp

/-- "Does not end in a separator", stated concatenation-free. -/
theorem not_endsep_iff (p : List Char) :
    p.getLast? ≠ some '/' ↔ ∀ q : List Char, p ≠ q ++ ['/'] := by
  constructor
  · intro h q hq
    subst hq
    exact h (List.getLast?_concat q)
  · intro h hl
    have hne : p ≠ [] := by
      intro h0
      subst h0
      simp [List.getLast?] at hl
    have h2 : p.getLast hne = '/' := by
      have h3 := List.getLast?_eq_getLast p hne
      rw [hl] at h3
      exact (Option.some_inj.mp h3).symm
    have h4 := List.dropLast_append_getLast hne
    rw [h2] at h4
    exact h p.dropLast h4.symm

/-- Dropping a single trailing separator does not change the component
list (the Go loops stop on the empty remainder). -/
theorem pathComponents_append_slash (p : List Char) (hp : p ≠ [])
    (hlast : ∀ q : List Char, p ≠ q ++ ['/']) :
    pathComponents (p ++ ['/']) = pathComponents p := by
  by_cases hs : '/' ∈ p
  · obtain ⟨hsplit, hhead⟩ := takeFirst_split p hs
    have htail_ne : (pathTakeFirst p).2 ≠ [] := by
      intro h0
      rw [h0] at hsplit
      exact hlast (pathTakeFirst p).1 hsplit
    have htail_last : ∀ q : List Char, (pathTakeFirst p).2 ≠ q ++ ['/'] := by
      intro q hq
      refine hlast ((pathTakeFirst p).1 ++ '/' :: q) ?_
      calc p = (pathTakeFirst p).1 ++ '/' :: (pathTakeFirst p).2 := hsplit
        _ = (pathTakeFirst p).1 ++ '/' :: (q ++ ['/']) := by rw [hq]
        _ = ((pathTakeFirst p).1 ++ '/' :: q) ++ ['/'] := by simp
    have happ : pathTakeFirst (p ++ ['/']) =
        ((pathTakeFirst p).1, (pathTakeFirst p).2 ++ ['/']) :=
      takeFirst_append p ['/'] hs
    have hne : p ++ ['/'] ≠ [] := by simp
    rw [pathComponents_cons _ hne, happ]
    rw [pathComponents_cons p hp]
    rw [pathComponents_append_slash (pathTakeFirst p).2 htail_ne htail_last]
  · have h1 : pathTakeFirst (p ++ ['/']) = (p, []) :=
      takeFirst_append_slash_no_slash p hs
    have h2 : pathTakeFirst p = (p, []) := takeFirst_no_slash p hs
    have hne : p ++ ['/'] ≠ [] := by simp
    rw [pathComponents_cons _ hne, h1, pathComponents_cons p hp, h2,
      pathComponents_nil]
termination_by p.length
decreasing_by exact takeFirst_snd_lt p hp

/-- A leading separator contributes an empty first component. -/
theorem pathComponents_leading (p : List Char) :
    pathComponents ('/' :: p) = [] :: pathComponents p := by
  have hne : ('/' : Char) :: p ≠ [] := by simp
  rw [pathComponents_cons _ hne]
  simp [pathTakeFirst]

/-- A doubled separator contributes an empty middle component. -/
theorem pathComponents_doubled (a b : List Char) (ha : a ≠ []) (hs : '/' ∉ a) :
    pathComponents (a ++ '/' :: '/' :: b) = a :: [] :: pathComponents b := by
  have hne : a ++ '/' :: '/' :: b ≠ [] := by simp
  rw [pathComponents_cons _ hne, takeFirst_no_slash_sep a ('/' :: b) hs]
  rw [pathComponents_leading]

/-! ## Prefix and `joinPath` lemmas -/

theorem preTrans {α : Type} {a b c : List α} (h1 : a <+: b) (h2 : b <+: c) :
    a <+: c := by
  obtain ⟨u, hu⟩ := h1
  obtain ⟨w, hw⟩ := h2
  exact ⟨u ++ w, by rw [← List.append_assoc, hu, hw]⟩

theorem preLength {α : Type} {a b : List α} (h : a <+: b) :
    a.length ≤ b.length := by
  obtain ⟨u, hu⟩ := h
  subst hu
  simp

theorem takePre {α : Type} (l : List α) (n : Nat) : l.take n <+: l :=
  ⟨l.drop n, List.take_append_drop n l⟩

theorem takeAppLe {α : Type} (l₁ l₂ : List α) (n : Nat) (h : n ≤ l₁.length) :
    (l₁ ++ l₂).take n = l₁.take n := by
  rw [List.take_append_eq_append_take]
  simp [Nat.sub_eq_zero_of_le h]

theorem takeOfPre {α : Type} {a b : List α} (h : a <+: b) :
    b.take a.length = a := by
  obtain ⟨u, hu⟩ := h
  subst hu
  rw [takeAppLe a u a.length (Nat.le_refl _), List.take_length]

/-- `joinPath` on a cons with a non-empty rest. -/
theorem joinPath_cons (c : List Char) (cs : List (List Char)) (h : cs ≠ []) :
    joinPath (c :: cs) = c ++ '/' :: joinPath cs := by
  match cs, h with
  | d :: ds, _ => rfl

/-- The joined components of a path are a prefix of the path (trailing
separator-material may be dropped, never added). -/
theorem joinComponents_pre (p : List Char) :
    joinPath (pathComponents p) <+: p := by
  by_cases hp : p = []
  · subst hp
    simp [pathComponents_nil, joinPath]
  by_cases hs : '/' ∈ p
  · obtain ⟨hsplit, _⟩ := takeFirst_split p hs
    rw [pathComponents_cons p hp]
    by_cases ht : pathComponents (pathTakeFirst p).2 = []
    · rw [ht, joinPath]
      exact ⟨'/' :: (pathTakeFirst p).2, hsplit.symm⟩
    · rw [joinPath_cons _ _ ht]
      obtain ⟨u, hu⟩ := joinComponents_pre (pathTakeFirst p).2
      refine ⟨u, ?_⟩
      rw [List.append_assoc, List.cons_append, hu]
      exact hsplit.symm
  · rw [pathComponents_cons p hp, takeFirst_no_slash p hs, pathComponents_nil,
      joinPath]
termination_by p.length
decreasing_by exact takeFirst_snd_lt p hp

/-- Joining a take of a component list yields a prefix of the full join. -/
theorem joinPath_take_pre : ∀ (cs : List (List Char)) (k : Nat),
    joinPath (cs.take k) <+: joinPath cs := by
  intro cs
  induction cs with
  | nil =>
    intro k
    rw [List.take_nil]
  | cons c ds ih =>
    intro k
    match k with
    | 0 =>
      rw [List.take_zero]
      exact ⟨joinPath (c :: ds), rfl⟩
    | k + 1 =>
      rw [List.take_succ_cons]
      match ds with
      | [] =>
        rw [List.take_nil]
      | d :: ds' =>
        by_cases hd : (d :: ds').take k = []
        · rw [hd]
          rw [joinPath_cons c (d :: ds') (by simp)]
          exact ⟨'/' :: joinPath (d :: ds'), rfl⟩
        · rw [joinPath_cons c _ hd, joinPath_cons c (d :: ds') (by simp)]
          obtain ⟨u, hu⟩ := ih k
          exact ⟨u, by rw [List.append_assoc, List.cons_append, hu]⟩

/-- `joinPath` over a snoc: appending a component appends `'/'`-plus-it. -/
theorem joinPath_concat (cs : List (List Char)) (c : List Char) (h : cs ≠ []) :
    joinPath (cs ++ [c]) = joinPath cs ++ '/' :: c := by
  induction cs with
  | nil => cases h rfl
  | cons d ds ih =>
    match ds with
    | [] => rfl
    | e :: es =>
      rw [List.cons_append, joinPath_cons d (e :: es ++ [c]) (by simp),
        joinPath_cons d (e :: es) (by simp), ih (by simp)]
      simp

/-! ## Children-map lemmas -/

/-- First-choice alternative on options (used to state how the `last`
accumulator of the lookup loop threads through). -/
def oAlt {α : Type} (a b : Option α) : Option α :=
  match a with
  | some x => some x
  | none => b

theorem oAlt_some {α : Type} (x : α) (b : Option α) :
    oAlt (some x) b = some x := rfl

theorem oAlt_none {α : Type} (b : Option α) : oAlt none b = b := rfl

/-- Map lookup respects the key: a found child has the looked-up name. -/
theorem findChild_name {T : Type} {l : List (pathTreeNode T)} {h : List Char}
    {c : pathTreeNode T} (hfc : findChild l h = some c) : c.name = h := by
  have := List.find?_some hfc
  exact of_decide_eq_true this

/-- A found child is one of the children. -/
theorem findChild_mem {T : Type} {l : List (pathTreeNode T)} {h : List Char}
    {c : pathTreeNode T} (hfc : findChild l h = some c) : c ∈ l :=
  List.mem_of_find?_eq_some hfc

/-- The node `set` descends into carries the head component as name. -/
theorem childStart_name {T : Type} (ch : List (pathTreeNode T))
    (head orig : List Char) (cur' : Nat) :
    (childStart ch head orig cur').name = head := by
  unfold childStart
  cases hfc : findChild ch head with
  | none => simp
  | some c => simpa using findChild_name hfc

/-- `set` never changes the name of the node it starts from. -/
theorem setAux_name {T : Type} (orig : List Char) (cur : Nat)
    (n : pathTreeNode T) (p : List Char) (v : T) :
    (pathTreeNode.setAux orig cur n p v).name = n.name := by
  by_cases hp : p = []
  · subst hp
    rw [setAux_nil]
    simp
  · rw [setAux_cons orig cur n p v hp]
    simp

/-- `set` never changes the stored path of the node it starts from. -/
theorem setAux_path {T : Type} (orig : List Char) (cur : Nat)
    (n : pathTreeNode T) (p : List Char) (v : T) :
    (pathTreeNode.setAux orig cur n p v).path = n.path := by
  by_cases hp : p = []
  · subst hp
    rw [setAux_nil]
    simp
  · rw [setAux_cons orig cur n p v hp]
    simp

/-- After a map update, looking up the updated key returns the new node. -/
theorem findChild_upsert_self {T : Type} (l : List (pathTreeNode T))
    (h : List Char) (x : pathTreeNode T) (hx : x.name = h) :
    findChild (upsertChild l h x) h = some x := by
  induction l with
  | nil =>
    simp [upsertChild, findChild, List.find?_cons_of_pos, hx]
  | cons c cs ih =>
    by_cases hc : c.name = h
    · simp only [upsertChild, if_pos hc]
      simp [findChild, List.find?_cons_of_pos, hx]
    · simp only [upsertChild, if_neg hc]
      rw [findChild, List.find?_cons_of_neg _ (by simpa using hc)]
      exact ih

/-- After a map update, looking up any other key is unchanged. -/
theorem findChild_upsert_other {T : Type} (l : List (pathTreeNode T))
    (h : List Char) (x : pathTreeNode T) (hx : x.name = h)
    (c : List Char) (hc : c ≠ h) :
    findChild (upsertChild l h x) c = findChild l c := by
  induction l with
  | nil =>
    rw [upsertChild, findChild,
      List.find?_cons_of_neg _ (by simp [hx]; exact fun e => hc e.symm)]
    rfl
  | cons d ds ih =>
    by_cases hd : d.name = h
    · simp only [upsertChild, if_pos hd]
      rw [findChild, List.find?_cons_of_neg _ (by simp [hx]; exact fun e => hc e.symm),
        findChild, List.find?_cons_of_neg _ (by simp [hd]; exact fun e => hc e.symm)]
    · simp only [upsertChild, if_neg hd]
      by_cases hdc : d.name = c
      · rw [findChild, List.find?_cons_of_pos _ (by simpa using hdc),
          findChild, List.find?_cons_of_pos _ (by simpa using hdc)]
      · rw [findChild, List.find?_cons_of_neg _ (by simpa using hdc),
          findChild, List.find?_cons_of_neg _ (by simpa using hdc)]
        exact ih

/-! ## The `last` accumulator of the lookup loop -/

/-- The lookup loop's result is its nil-accumulator result when that
found something, and the initial accumulator otherwise. -/
theorem lookupAux_acc {T : Type} (p : List Char) (n : pathTreeNode T)
    (a : Option (pathTreeNode T)) :
    pathTreeNode.lookupAux n p a = oAlt (pathTreeNode.lookupAux n p none) a := by
  by_cases hp : p = []
  · subst hp
    by_cases hv : n.value.isSome <;> simp [lookupAux_nil, hv, oAlt]
  · rw [lookupAux_cons n p a hp, lookupAux_cons n p none hp]
    cases hfc : findChild n.children (pathTakeFirst p).1 with
    | none => by_cases hv : n.value.isSome <;> simp [hv, oAlt]
    | some c =>
      dsimp only
      rw [lookupAux_acc (pathTakeFirst p).2 c
        (if n.value.isSome then some n else a),
        lookupAux_acc (pathTakeFirst p).2 c
        (if n.value.isSome then some n else none)]
      by_cases hv : n.value.isSome <;>
        cases hB : pathTreeNode.lookupAux c (pathTakeFirst p).2 none <;>
        simp [hv, hB, oAlt]
termination_by p.length
decreasing_by all_goals exact takeFirst_snd_lt p hp

/-! ## Traversals as functions of the component list -/

/-- `get` is exact component-by-component descent: it equals `nodeAt`
on the component list (no nearest-ancestor fallback). -/
theorem get_eq_nodeAt {T : Type} (n : pathTreeNode T) (p : List Char) :
    pathTreeNode.get n p = nodeAt n (pathComponents p) := by
  by_cases hp : p = []
  · subst hp
    rw [get_nil, pathComponents_nil]
    rfl
  · rw [get_cons n p hp, pathComponents_cons p hp]
    cases hfc : findChild n.children (pathTakeFirst p).1 with
    | none => simp [nodeAt, hfc]
    | some c =>
      simp only [nodeAt, hfc]
      exact get_eq_nodeAt c (pathTakeFirst p).2
termination_by p.length
decreasing_by exact takeFirst_snd_lt p hp

/-- The lookup loop, phrased on an already-split component list. -/
def lookupComps {T : Type} (n : pathTreeNode T) (cs : List (List Char))
    (last : Option (pathTreeNode T)) : Option (pathTreeNode T) :=
  let last' := if n.value.isSome then some n else last
  match cs with
  | [] => last'
  | c :: cs' =>
    match findChild n.children c with
    | none => last'
    | some m => lookupComps m cs' last'

/-- The lookup loop consumes exactly the components of the path: its
result is a function of the component list alone. -/
theorem lookupAux_eq_comps {T : Type} (n : pathTreeNode T) (p : List Char)
    (last : Option (pathTreeNode T)) :
    pathTreeNode.lookupAux n p last = lookupComps n (pathComponents p) last := by
  by_cases hp : p = []
  · subst hp
    rw [lookupAux_nil, pathComponents_nil]
    rfl
  · rw [lookupAux_cons n p last hp, pathComponents_cons p hp]
    cases hfc : findChild n.children (pathTakeFirst p).1 with
    | none => simp [lookupComps, hfc]
    | some c =>
      simp only [lookupComps, hfc]
      exact lookupAux_eq_comps c (pathTakeFirst p).2 _
termination_by p.length
decreasing_by exact takeFirst_snd_lt p hp

/-! ## Which nodes `set` touches -/

/-- After `set`, the node at the written path exists and carries the
new value. -/
theorem nodeAt_setAux_self {T : Type} (orig : List Char) (cur : Nat)
    (n : pathTreeNode T) (p : List Char) (v : T) :
    ∃ m, nodeAt (pathTreeNode.setAux orig cur n p v) (pathComponents p) = some m ∧
      m.value = some v := by
  by_cases hp : p = []
  · subst hp
    rw [setAux_nil, pathComponents_nil]
    exact ⟨_, rfl, rfl⟩
  · rw [setAux_cons orig cur n p v hp, pathComponents_cons p hp]
    have hname : (pathTreeNode.setAux orig (nextCur cur (pathTakeFirst p).1)
        (childStart n.children (pathTakeFirst p).1 orig
          (nextCur cur (pathTakeFirst p).1)) (pathTakeFirst p).2 v).name =
        (pathTakeFirst p).1 := by
      rw [setAux_name, childStart_name]
    obtain ⟨m, hm, hv⟩ := nodeAt_setAux_self orig (nextCur cur (pathTakeFirst p).1)
      (childStart n.children (pathTakeFirst p).1 orig
        (nextCur cur (pathTakeFirst p).1)) (pathTakeFirst p).2 v
    refine ⟨m, ?_, hv⟩
    simp only [nodeAt, pathTreeNode.children_mk]
    rw [findChild_upsert_self _ _ _ hname]
    exact hm
termination_by p.length
decreasing_by exact takeFirst_snd_lt p hp

/-- Frame property of `set` on explicit values: the value visible at
any component address other than the written one is unchanged. -/
theorem nodeAt_setAux_other {T : Type} (orig : List Char) (cur : Nat)
    (n : pathTreeNode T) (p : List Char) (v : T)
    (cs : List (List Char)) (hcs : cs ≠ pathComponents p) :
    (nodeAt (pathTreeNode.setAux orig cur n p v) cs).bind pathTreeNode.value =
      (nodeAt n cs).bind pathTreeNode.value := by
  by_cases hp : p = []
  · subst hp
    rw [pathComponents_nil] at hcs
    rw [setAux_nil]
    cases cs with
    | nil => exact absurd rfl hcs
    | cons c cs' =>
      simp only [nodeAt, pathTreeNode.children_mk]
  · rw [setAux_cons orig cur n p v hp]
    have hname : (pathTreeNode.setAux orig (nextCur cur (pathTakeFirst p).1)
        (childStart n.children (pathTakeFirst p).1 orig
          (nextCur cur (pathTakeFirst p).1)) (pathTakeFirst p).2 v).name =
        (pathTakeFirst p).1 := by
      rw [setAux_name, childStart_name]
    cases cs with
    | nil =>
      simp [nodeAt]
    | cons c cs' =>
      by_cases hch : c = (pathTakeFirst p).1
      · rw [pathComponents_cons p hp] at hcs
        have hcs' : cs' ≠ pathComponents (pathTakeFirst p).2 := by
          intro h0
          exact hcs (by rw [hch, h0])
        simp only [nodeAt, pathTreeNode.children_mk, hch]
        rw [findChild_upsert_self _ _ _ hname]
        simp only [childStart]
        cases hfc : findChild n.children (pathTakeFirst p).1 with
        | some child =>
          exact nodeAt_setAux_other orig (nextCur cur (pathTakeFirst p).1) child
            (pathTakeFirst p).2 v cs' hcs'
        | none =>
          rw [nodeAt_setAux_other orig (nextCur cur (pathTakeFirst p).1)
            (pathTreeNode.mk (pathTakeFirst p).1
              (orig.take (nextCur cur (pathTakeFirst p).1)) none [])
            (pathTakeFirst p).2 v cs' hcs']
          cases cs' with
          | nil => rfl
          | cons c'' cs'' => simp [nodeAt, findChild]
      · simp only [nodeAt, pathTreeNode.children_mk]
        rw [findChild_upsert_other _ _ _ hname c hch]
termination_by p.length
decreasing_by all_goals exact takeFirst_snd_lt p hp

/-! ## Tree shape -/

mutual
/-- The shape of a node: names, stored paths and child structure,
with the values erased. -/
def stripNode {T : Type} : pathTreeNode T → pathTreeNode Unit
  | .mk nm pa _ ch => pathTreeNode.mk nm pa none (stripList ch)
/-- `stripNode` mapped over a list of nodes. -/
def stripList {T : Type} : List (pathTreeNode T) → List (pathTreeNode Unit)
  | [] => []
  | c :: cs => stripNode c :: stripList cs
end

theorem stripNode_eq {T : Type} (n : pathTreeNode T) :
    stripNode n = pathTreeNode.mk n.name n.path none (stripList n.children) := by
  cases n
  rfl

/-- Replacing an existing child by a node of the same shape preserves
the shape of the children map. -/
theorem stripList_upsert {T : Type} (ch : List (pathTreeNode T)) (h : List Char)
    (x c : pathTreeNode T) (hfc : findChild ch h = some c)
    (hsx : stripNode x = stripNode c) :
    stripList (upsertChild ch h x) = stripList ch := by
  induction ch with
  | nil => simp [findChild] at hfc
  | cons d ds ih =>
    by_cases hd : d.name = h
    · rw [findChild, List.find?_cons_of_pos _ (by simpa using hd)] at hfc
      have hcd : c = d := by injection hfc with h1; exact h1.symm
      subst hcd
      rw [upsertChild, if_pos hd]
      rw [stripList, stripList, hsx]
    · rw [findChild, List.find?_cons_of_neg _ (by simpa using hd)] at hfc
      rw [upsertChild, if_neg hd]
      rw [stripList, stripList, ih hfc]

/-- When the written path's node already exists, `set` does not change
the shape of the tree (it only replaces the value at that node). -/
theorem strip_setAux {T : Type} (orig : List Char) (cur : Nat)
    (n : pathTreeNode T) (p : List Char) (v : T)
    (hex : (nodeAt n (pathComponents p)).isSome) :
    stripNode (pathTreeNode.setAux orig cur n p v) = stripNode n := by
  by_cases hp : p = []
  · subst hp
    rw [setAux_nil, stripNode_eq, stripNode_eq]
    simp
  · rw [pathComponents_cons p hp] at hex
    rw [setAux_cons orig cur n p v hp]
    cases hfc : findChild n.children (pathTakeFirst p).1 with
    | none => simp [nodeAt, hfc] at hex
    | some child =>
      simp only [nodeAt, hfc] at hex
      have hrec : stripNode (pathTreeNode.setAux orig
          (nextCur cur (pathTakeFirst p).1)
          (childStart n.children (pathTakeFirst p).1 orig
            (nextCur cur (pathTakeFirst p).1)) (pathTakeFirst p).2 v) =
          stripNode child := by
        rw [childStart, hfc]
        exact strip_setAux orig (nextCur cur (pathTakeFirst p).1) child
          (pathTakeFirst p).2 v hex
      rw [stripNode_eq, stripNode_eq n]
      simp only [pathTreeNode.name_mk, pathTreeNode.path_mk,
        pathTreeNode.children_mk]
      rw [stripList_upsert n.children (pathTakeFirst p).1 _ child hfc hrec]
termination_by p.length
decreasing_by exact takeFirst_snd_lt p hp

/-! ## Lookup results -/

/-- What `pathTree.Lookup` makes of the node the loop returned
(src/path_tree.go:40-43): the stored path and the value, or
`found = false`. -/
def resultOf {T : Type} : Option (pathTreeNode T) → Option (List Char × T)
  | none => none
  | some n =>
    match n.value with
    | none => none
    | some v => some (n.path, v)

theorem Lookup_eq_resultOf {T : Type} (t : pathTree T) (p : List Char) :
    t.Lookup p = resultOf (pathTreeNode.lookupAux t.root p none) := by
  unfold pathTree.Lookup resultOf pathTreeNode.lookup
  cases pathTreeNode.lookupAux t.root p none with
  | none => rfl
  | some n => rfl

/-- The lookup loop only stores valued nodes in `last`: a non-`nil`
result that is not the initial accumulator has a value. -/
theorem lookupAux_some_valued {T : Type} (q : List Char) (n : pathTreeNode T)
    (a : Option (pathTreeNode T)) (m : pathTreeNode T)
    (hr : pathTreeNode.lookupAux n q a = some m) :
    m.value.isSome ∨ a = some m := by
  by_cases hq : q = []
  · subst hq
    rw [lookupAux_nil] at hr
    by_cases hv : n.value.isSome
    · rw [if_pos hv] at hr
      left
      injection hr with h1
      exact h1 ▸ hv
    · rw [if_neg hv] at hr
      right
      exact hr
  · rw [lookupAux_cons n q a hq] at hr
    cases hfc : findChild n.children (pathTakeFirst q).1 with
    | none =>
      rw [hfc] at hr
      by_cases hv : n.value.isSome
      · rw [if_pos hv] at hr
        left
        injection hr with h1
        exact h1 ▸ hv
      · rw [if_neg hv] at hr
        right
        exact hr
    | some c =>
      rw [hfc] at hr
      rcases lookupAux_some_valued (pathTakeFirst q).2 c _ m hr with h1 | h1
      · exact Or.inl h1
      · by_cases hv : n.value.isSome
        · rw [if_pos hv] at h1
          left
          injection h1 with h2
          exact h2 ▸ hv
        · rw [if_neg hv] at h1
          right
          exact h1
termination_by q.length
decreasing_by exact takeFirst_snd_lt q hq

/-- With a `nil` initial accumulator, any hit is a valued node. -/
theorem lookup_some_valued {T : Type} (q : List Char) (n : pathTreeNode T)
    (m : pathTreeNode T) (hr : pathTreeNode.lookupAux n q none = some m) :
    m.value.isSome := by
  rcases lookupAux_some_valued q n none m hr with h | h
  · exact h
  · cases h

/-- `resultOf` only sees the stored path and the value, so updating the
accumulator with the modified node or with the original is equivalent. -/
theorem resultOf_acc_nv {T : Type} (n : pathTreeNode T) (nm pa : List Char)
    (ch ch' : List (pathTreeNode T)) (a : Option (pathTreeNode T)) (v : Option T) :
    resultOf (if v.isSome then some (pathTreeNode.mk nm pa v ch) else a) =
      resultOf (if v.isSome then some (pathTreeNode.mk nm pa v ch') else a) := by
  cases v with
  | none => rfl
  | some w => rfl


/-- Lookup in a freshly created spine: the walk either never meets a
value (and yields the accumulator) or reaches the spine's end, the
node carrying the newly written value. -/
theorem lookupAux_fresh {T : Type} (orig : List Char) (cur : Nat)
    (nm pa : List Char) (p q : List Char) (v : T)
    (a : Option (pathTreeNode T)) :
    resultOf (pathTreeNode.lookupAux
      (pathTreeNode.setAux orig cur (pathTreeNode.mk nm pa none []) p v) q a) =
      resultOf a ∨
    (∃ m, nodeAt (pathTreeNode.setAux orig cur (pathTreeNode.mk nm pa none []) p v)
        (pathComponents p) = some m ∧
      resultOf (pathTreeNode.lookupAux
        (pathTreeNode.setAux orig cur (pathTreeNode.mk nm pa none []) p v) q a) =
        some (m.path, v)) := by
  by_cases hp : p = []
  · subst hp
    rw [setAux_nil]
    simp only [pathTreeNode.name_mk, pathTreeNode.path_mk, pathTreeNode.children_mk]
    right
    refine ⟨pathTreeNode.mk nm pa (some v) [], by rw [pathComponents_nil]; rfl, ?_⟩
    by_cases hq : q = []
    · subst hq
      rw [lookupAux_nil]
      rfl
    · rw [lookupAux_cons _ q a hq]
      have hfc : findChild (pathTreeNode.mk nm pa (some v)
          ([] : List (pathTreeNode T))).children (pathTakeFirst q).1 = none := by
        simp [findChild]
      rw [hfc]
      rfl
  · rw [setAux_cons _ _ _ _ _ hp]
    simp only [pathTreeNode.name_mk, pathTreeNode.path_mk, pathTreeNode.value_mk,
      pathTreeNode.children_mk]
    have hcs : childStart ([] : List (pathTreeNode T)) (pathTakeFirst p).1 orig
        (nextCur cur (pathTakeFirst p).1) =
        pathTreeNode.mk (pathTakeFirst p).1
          (orig.take (nextCur cur (pathTakeFirst p).1)) none [] := by
      simp [childStart, findChild]
    rw [hcs]
    set x := pathTreeNode.setAux orig (nextCur cur (pathTakeFirst p).1)
      (pathTreeNode.mk (pathTakeFirst p).1
        (orig.take (nextCur cur (pathTakeFirst p).1)) none [])
      (pathTakeFirst p).2 v with hxdef
    have hxname : x.name = (pathTakeFirst p).1 := by
      rw [hxdef, setAux_name]
      rfl
    have hups : upsertChild ([] : List (pathTreeNode T)) (pathTakeFirst p).1 x =
        [x] := rfl
    rw [hups]
    by_cases hq : q = []
    · subst hq
      rw [lookupAux_nil]
      left
      rfl
    · rw [lookupAux_cons _ q a hq]
      simp only [pathTreeNode.children_mk, pathTreeNode.value_mk,
        Option.isSome_none, Bool.false_eq_true, if_false]
      by_cases hqh : (pathTakeFirst q).1 = (pathTakeFirst p).1
      · have hfc : findChild [x] (pathTakeFirst q).1 = some x := by
          rw [findChild, List.find?_cons_of_pos _ (by simp [hxname, hqh])]
        rw [hfc]
        rcases lookupAux_fresh orig (nextCur cur (pathTakeFirst p).1)
            (pathTakeFirst p).1 (orig.take (nextCur cur (pathTakeFirst p).1))
            (pathTakeFirst p).2 (pathTakeFirst q).2 v a with hl | ⟨m, hm, hres⟩
        · left
          rw [← hxdef] at hl
          exact hl
        · right
          rw [← hxdef] at hm hres
          refine ⟨m, ?_, hres⟩
          rw [pathComponents_cons p hp]
          simp only [nodeAt, pathTreeNode.children_mk]
          have hfc2 : findChild [x] (pathTakeFirst p).1 = some x := by
            rw [findChild, List.find?_cons_of_pos _ (by simp [hxname])]
          rw [hfc2]
          exact hm
      · have hfc : findChild [x] (pathTakeFirst q).1 = none := by
          rw [findChild,
            List.find?_cons_of_neg _ (by simp [hxname]; exact fun e => hqh e.symm)]
          rfl
        rw [hfc]
        left
        rfl
termination_by p.length
decreasing_by exact takeFirst_snd_lt p hp

/-- Replacing the children of the node the accumulator captures does
not change the observable lookup result. -/
theorem resultOf_upd {T : Type} (n : pathTreeNode T)
    (ch' : List (pathTreeNode T)) (a : Option (pathTreeNode T)) :
    resultOf (if n.value.isSome then
        some (pathTreeNode.mk n.name n.path n.value ch') else a) =
      resultOf (if n.value.isSome then some n else a) := by
  cases n with
  | mk nm pa val ch =>
    cases val with
    | none => simp
    | some w => simp [resultOf]

/-- Congruence for the accumulator decomposition: if the nil-accumulator
results agree observably (and hits are valued nodes), and the
accumulators agree observably, the full results agree observably. -/
theorem resultOf_oAlt_congr {T : Type} {B B' A A' : Option (pathTreeNode T)}
    (hB : resultOf B = resultOf B')
    (hBval : ∀ r, B = some r → r.value.isSome)
    (hB'val : ∀ r, B' = some r → r.value.isSome)
    (hA : resultOf A = resultOf A') :
    resultOf (oAlt B A) = resultOf (oAlt B' A') := by
  cases B with
  | some r =>
    cases B' with
    | some r' => simpa [oAlt] using hB
    | none =>
      exfalso
      obtain ⟨w, hw⟩ := Option.isSome_iff_exists.mp (hBval r rfl)
      simp [resultOf, hw] at hB
  | none =>
    cases B' with
    | some r' =>
      exfalso
      obtain ⟨w, hw⟩ := Option.isSome_iff_exists.mp (hB'val r' rfl)
      simp [resultOf, hw] at hB
    | none => simpa [oAlt] using hA

/-- How a `set` changes an arbitrary lookup: observably, either not at
all, or the result becomes the updated node's stored path and the new
value. -/
theorem lookupAux_setAux {T : Type} (orig : List Char) (cur : Nat)
    (n : pathTreeNode T) (p q : List Char) (v : T)
    (a : Option (pathTreeNode T)) :
    resultOf (pathTreeNode.lookupAux (pathTreeNode.setAux orig cur n p v) q a) =
      resultOf (pathTreeNode.lookupAux n q a) ∨
    (∃ m, nodeAt (pathTreeNode.setAux orig cur n p v) (pathComponents p) = some m ∧
      resultOf (pathTreeNode.lookupAux (pathTreeNode.setAux orig cur n p v) q a) =
        some (m.path, v)) := by
  by_cases hp : p = []
  · subst hp
    rw [setAux_nil]
    by_cases hq : q = []
    · subst hq
      right
      refine ⟨_, by rw [pathComponents_nil]; rfl, ?_⟩
      rw [lookupAux_nil]
      rfl
    · rw [lookupAux_cons _ q a hq, lookupAux_cons n q a hq]
      simp only [pathTreeNode.children_mk, pathTreeNode.value_mk,
        pathTreeNode.path_mk]
      cases hfc : findChild n.children (pathTakeFirst q).1 with
      | none =>
        dsimp only
        right
        refine ⟨_, by rw [pathComponents_nil]; rfl, ?_⟩
        simp [resultOf]
      | some c =>
        dsimp only
        rw [lookupAux_acc (pathTakeFirst q).2 c
            (if (some v).isSome then
              some (pathTreeNode.mk n.name n.path (some v) n.children) else a),
          lookupAux_acc (pathTakeFirst q).2 c
            (if n.value.isSome then some n else a)]
        cases hB : pathTreeNode.lookupAux c (pathTakeFirst q).2 none with
        | some r =>
          left
          simp [oAlt]
        | none =>
          right
          refine ⟨_, by rw [pathComponents_nil]; rfl, ?_⟩
          simp [oAlt, resultOf]
  · rw [setAux_cons _ _ _ _ _ hp]
    set x := pathTreeNode.setAux orig (nextCur cur (pathTakeFirst p).1)
      (childStart n.children (pathTakeFirst p).1 orig
        (nextCur cur (pathTakeFirst p).1)) (pathTakeFirst p).2 v with hxdef
    have hxname : x.name = (pathTakeFirst p).1 := by
      rw [hxdef, setAux_name, childStart_name]
    by_cases hq : q = []
    · subst hq
      rw [lookupAux_nil, lookupAux_nil]
      left
      simp only [pathTreeNode.value_mk, pathTreeNode.path_mk,
        pathTreeNode.name_mk]
      exact resultOf_upd n _ a
    · rw [lookupAux_cons _ q a hq, lookupAux_cons n q a hq]
      simp only [pathTreeNode.children_mk, pathTreeNode.value_mk,
        pathTreeNode.path_mk, pathTreeNode.name_mk]
      by_cases hqh : (pathTakeFirst q).1 = (pathTakeFirst p).1
      · rw [hqh, findChild_upsert_self _ _ _ hxname]
        cases hfc : findChild n.children (pathTakeFirst p).1 with
        | some child =>
          have hx2 : x = pathTreeNode.setAux orig
              (nextCur cur (pathTakeFirst p).1) child (pathTakeFirst p).2 v := by
            rw [hxdef, childStart, hfc]
          dsimp only
          rw [lookupAux_acc (pathTakeFirst q).2 x
              (if n.value.isSome then
                some (pathTreeNode.mk n.name n.path n.value
                  (upsertChild n.children (pathTakeFirst p).1 x)) else a),
            lookupAux_acc (pathTakeFirst q).2 child
              (if n.value.isSome then some n else a)]
          rcases lookupAux_setAux orig (nextCur cur (pathTakeFirst p).1) child
              (pathTakeFirst p).2 (pathTakeFirst q).2 v none with hIH | ⟨m, hm, hres⟩
          · left
            rw [← hx2] at hIH
            refine resultOf_oAlt_congr hIH ?_ ?_ (resultOf_upd n _ a)
            · exact fun r h => lookup_some_valued (pathTakeFirst q).2 x r h
            · exact fun r h => lookup_some_valued (pathTakeFirst q).2 child r h
          · rw [← hx2] at hm hres
            cases hBx : pathTreeNode.lookupAux x (pathTakeFirst q).2 none with
            | none =>
              rw [hBx] at hres
              simp [resultOf] at hres
            | some rx =>
              right
              refine ⟨m, ?_, ?_⟩
              · rw [pathComponents_cons p hp]
                simp only [nodeAt, pathTreeNode.children_mk]
                rw [findChild_upsert_self _ _ _ hxname]
                exact hm
              · rw [hBx] at hres
                simpa [oAlt] using hres
        | none =>
          have hx2 : x = pathTreeNode.setAux orig
              (nextCur cur (pathTakeFirst p).1)
              (pathTreeNode.mk (pathTakeFirst p).1
                (orig.take (nextCur cur (pathTakeFirst p).1)) none [])
              (pathTakeFirst p).2 v := by
            rw [hxdef, childStart, hfc]
          dsimp only
          rcases lookupAux_fresh orig (nextCur cur (pathTakeFirst p).1)
              (pathTakeFirst p).1 (orig.take (nextCur cur (pathTakeFirst p).1))
              (pathTakeFirst p).2 (pathTakeFirst q).2 v
              (if n.value.isSome then
                some (pathTreeNode.mk n.name n.path n.value
                  (upsertChild n.children (pathTakeFirst p).1 x)) else a)
              with hl | ⟨m, hm, hres⟩
          · left
            rw [← hx2] at hl
            rw [hl]
            exact resultOf_upd n _ a
          · right
            rw [← hx2] at hm hres
            refine ⟨m, ?_, hres⟩
            rw [pathComponents_cons p hp]
            simp only [nodeAt, pathTreeNode.children_mk]
            rw [findChild_upsert_self _ _ _ hxname]
            exact hm
      · rw [findChild_upsert_other _ _ _ hxname _ hqh]
        cases hfc : findChild n.children (pathTakeFirst q).1 with
        | none =>
          dsimp only
          left
          exact resultOf_upd n _ a
        | some c =>
          dsimp only
          rw [lookupAux_acc (pathTakeFirst q).2 c
              (if n.value.isSome then
                some (pathTreeNode.mk n.name n.path n.value
                  (upsertChild n.children (pathTakeFirst p).1 x)) else a),
            lookupAux_acc (pathTakeFirst q).2 c
              (if n.value.isSome then some n else a)]
          left
          refine resultOf_oAlt_congr rfl ?_ ?_ (resultOf_upd n _ a)
          · exact fun r h => lookup_some_valued (pathTakeFirst q).2 c r h
          · exact fun r h => lookup_some_valued (pathTakeFirst q).2 c r h
termination_by q.length
decreasing_by all_goals exact takeFirst_snd_lt q hq

/-! ## Stored paths are prefixes -/

/-- A hit of the lookup loop is a node visited along the walk: a node
sitting at some take of the query's component list (or the initial
accumulator). -/
theorem lookupAux_visited {T : Type} (q : List Char) (n : pathTreeNode T)
    (a : Option (pathTreeNode T)) (m : pathTreeNode T)
    (h : pathTreeNode.lookupAux n q a = some m) :
    (∃ k, nodeAt n ((pathComponents q).take k) = some m) ∨ a = some m := by
  by_cases hq : q = []
  · subst hq
    rw [lookupAux_nil] at h
    by_cases hv : n.value.isSome
    · rw [if_pos hv] at h
      left
      exact ⟨0, by rw [List.take_zero]; exact h⟩
    · rw [if_neg hv] at h
      right
      exact h
  · rw [lookupAux_cons n q a hq] at h
    cases hfc : findChild n.children (pathTakeFirst q).1 with
    | none =>
      rw [hfc] at h
      by_cases hv : n.value.isSome
      · rw [if_pos hv] at h
        left
        exact ⟨0, by rw [List.take_zero]; exact h⟩
      · rw [if_neg hv] at h
        right
        exact h
    | some c =>
      rw [hfc] at h
      rcases lookupAux_visited (pathTakeFirst q).2 c _ m h with ⟨k, hk⟩ | hacc
      · left
        refine ⟨k + 1, ?_⟩
        rw [pathComponents_cons q hq, List.take_succ_cons]
        simp only [nodeAt, hfc]
        exact hk
      · by_cases hv : n.value.isSome
        · rw [if_pos hv] at hacc
          left
          exact ⟨0, by rw [List.take_zero]; exact hacc⟩
        · rw [if_neg hv] at hacc
          right
          exact hacc
termination_by q.length
decreasing_by exact takeFirst_snd_lt q hq

/-- Taking past an element of an append: the element is included. -/
theorem take_append_cons {α : Type} (l1 : List α) (a : α) (l2 : List α) :
    (l1 ++ a :: l2).take (l1.length + 1) = l1 ++ [a] := by
  induction l1 with
  | nil => simp
  | cons b l1' ih =>
    simp only [List.cons_append, List.length_cons]
    rw [List.take_succ_cons, ih]

/-- A take bounded by the length of a prefix is a take of the prefix. -/
theorem take_pre_of_pre {α : Type} {J l : List α} (hJ : J <+: l) {k : Nat}
    (hk : k ≤ J.length) : l.take k <+: J := by
  have h1 : (l.take J.length).take k = l.take k := by
    rw [List.take_take, Nat.min_eq_left hk]
  rw [← h1, takeOfPre hJ]
  exact takePre J k

/-- The curPathLen counter never exceeds the length of the joined
consumed components. -/
theorem nextCur_le_join (cs0 : List (List Char)) (h : List Char) (cur : Nat)
    (hcur : cur ≤ (joinPath cs0).length) :
    nextCur cur h ≤ (joinPath (cs0 ++ [h])).length := by
  match cs0 with
  | [] =>
    have h0 : cur = 0 := Nat.le_zero.mp (by simpa [joinPath] using hcur)
    subst h0
    simp [nextCur, joinPath]
  | c :: cs0' =>
    rw [joinPath_concat (c :: cs0') h (by simp)]
    simp only [List.length_append, List.length_cons]
    have : nextCur cur h ≤ cur + 1 + h.length := by
      rw [nextCur]
      split
      · exact Nat.le_refl _
      · omega
    calc nextCur cur h ≤ cur + 1 + h.length := this
      _ ≤ (joinPath (c :: cs0')).length + 1 + h.length := by omega
      _ = (joinPath (c :: cs0')).length + (h.length + 1) := by omega

/-- Invariant preservation for `set`, with the consumed components
`cs0` made explicit: every node of the resulting subtree stores a path
that is a prefix of the join of its component address. -/
theorem nodeAt_path_pre_setAux {T : Type} (orig : List Char) (cur : Nat)
    (cs0 : List (List Char)) (n : pathTreeNode T) (p : List Char) (v : T)
    (hcomp : pathComponents orig = cs0 ++ pathComponents p)
    (hcur : cur ≤ (joinPath cs0).length)
    (hinv : ∀ cs m, nodeAt n cs = some m → m.path <+: joinPath (cs0 ++ cs)) :
    ∀ cs m, nodeAt (pathTreeNode.setAux orig cur n p v) cs = some m →
      m.path <+: joinPath (cs0 ++ cs) := by
  by_cases hp : p = []
  · subst hp
    rw [setAux_nil]
    intro cs m hnm
    cases cs with
    | nil =>
      have hm : m = pathTreeNode.mk n.name n.path (some v) n.children := by
        injection hnm with h1
        exact h1.symm
      subst hm
      simpa using hinv [] n rfl
    | cons c cs' =>
      simp only [nodeAt, pathTreeNode.children_mk] at hnm
      exact hinv (c :: cs') m (by simpa [nodeAt] using hnm)
  · rw [setAux_cons _ _ _ _ _ hp]
    have hxname : (pathTreeNode.setAux orig (nextCur cur (pathTakeFirst p).1)
        (childStart n.children (pathTakeFirst p).1 orig
          (nextCur cur (pathTakeFirst p).1)) (pathTakeFirst p).2 v).name =
        (pathTakeFirst p).1 := by
      rw [setAux_name, childStart_name]
    have hcomp' : pathComponents orig =
        (cs0 ++ [(pathTakeFirst p).1]) ++ pathComponents (pathTakeFirst p).2 := by
      rw [hcomp, pathComponents_cons p hp]
      simp
    have hcur' : nextCur cur (pathTakeFirst p).1 ≤
        (joinPath (cs0 ++ [(pathTakeFirst p).1])).length :=
      nextCur_le_join cs0 (pathTakeFirst p).1 cur hcur
    have hJpre : joinPath (cs0 ++ [(pathTakeFirst p).1]) <+: orig := by
      have h1 : (pathComponents orig).take (cs0.length + 1) =
          cs0 ++ [(pathTakeFirst p).1] := by
        rw [hcomp, pathComponents_cons p hp]
        exact take_append_cons cs0 (pathTakeFirst p).1 _
      have h2 := joinPath_take_pre (pathComponents orig) (cs0.length + 1)
      rw [h1] at h2
      exact preTrans h2 (joinComponents_pre orig)
    have hfreshpath : orig.take (nextCur cur (pathTakeFirst p).1) <+:
        joinPath (cs0 ++ [(pathTakeFirst p).1]) :=
      take_pre_of_pre hJpre hcur'
    have hinv' : ∀ cs m, nodeAt (childStart n.children (pathTakeFirst p).1 orig
        (nextCur cur (pathTakeFirst p).1)) cs = some m →
        m.path <+: joinPath ((cs0 ++ [(pathTakeFirst p).1]) ++ cs) := by
      intro cs m hnm
      cases hfc : findChild n.children (pathTakeFirst p).1 with
      | some child =>
        rw [childStart, hfc] at hnm
        have := hinv ((pathTakeFirst p).1 :: cs) m
          (by simp only [nodeAt, hfc]; exact hnm)
        simpa using this
      | none =>
        rw [childStart, hfc] at hnm
        cases cs with
        | nil =>
          have hm : m = pathTreeNode.mk (pathTakeFirst p).1
              (orig.take (nextCur cur (pathTakeFirst p).1)) none [] := by
            injection hnm with h1
            exact h1.symm
          subst hm
          simpa using hfreshpath
        | cons c'' cs'' =>
          simp [nodeAt, findChild] at hnm
    have hrec := nodeAt_path_pre_setAux orig (nextCur cur (pathTakeFirst p).1)
      (cs0 ++ [(pathTakeFirst p).1])
      (childStart n.children (pathTakeFirst p).1 orig
        (nextCur cur (pathTakeFirst p).1))
      (pathTakeFirst p).2 v hcomp' hcur' hinv'
    intro cs m hnm
    cases cs with
    | nil =>
      have hm : m = pathTreeNode.mk n.name n.path n.value
          (upsertChild n.children (pathTakeFirst p).1
            (pathTreeNode.setAux orig (nextCur cur (pathTakeFirst p).1)
              (childStart n.children (pathTakeFirst p).1 orig
                (nextCur cur (pathTakeFirst p).1)) (pathTakeFirst p).2 v)) := by
        injection hnm with h1
        exact h1.symm
      subst hm
      simpa using hinv [] n rfl
    | cons c cs' =>
      simp only [nodeAt, pathTreeNode.children_mk] at hnm
      by_cases hch : c = (pathTakeFirst p).1
      · rw [hch, findChild_upsert_self _ _ _ hxname] at hnm
        have := hrec cs' m hnm
        rw [hch]
        simpa using this
      · rw [findChild_upsert_other _ _ _ hxname c hch] at hnm
        exact hinv (c :: cs') m (by simp only [nodeAt]; exact hnm)
termination_by p.length
decreasing_by exact takeFirst_snd_lt p hp

/-- Tree invariant: every node's stored path is a string prefix of the
join of its component address. -/
def treeInv {T : Type} (t : pathTree T) : Prop :=
  ∀ cs m, nodeAt t.root cs = some m → m.path <+: joinPath cs

theorem treeInv_empty {T : Type} : treeInv (pathTree.empty : pathTree T) := by
  intro cs m hnm
  cases cs with
  | nil =>
    have hm : m = pathTreeNode.mk [] [] none [] := by
      injection hnm with h1
      exact h1.symm
    subst hm
    exact ⟨joinPath [], rfl⟩
  | cons c cs' =>
    simp [nodeAt, findChild, pathTree.empty] at hnm

theorem treeInv_Set {T : Type} (t : pathTree T) (p : List Char) (v : T)
    (h : treeInv t) : treeInv (t.Set p v) := by
  intro cs m hnm
  have hmain := nodeAt_path_pre_setAux p 0 [] t.root p v rfl (Nat.zero_le _)
    (fun cs m hm => h cs m hm) cs m hnm
  simpa using hmain

theorem treeInv_build {T : Type} (ops : List (List Char × T)) :
    treeInv (buildTree ops) := by
  suffices h : ∀ t : pathTree T,
      treeInv t → treeInv (ops.foldl (fun t e => t.Set e.1 e.2) t) by
    exact h pathTree.empty treeInv_empty
  induction ops with
  | nil =>
    intro t ht
    simpa using ht
  | cons e es ih =>
    intro t ht
    simp only [List.foldl_cons]
    exact ih _ (treeInv_Set t e.1 e.2 ht)

/-- In any tree satisfying the stored-path invariant, a successful
lookup returns a matched path that is a string prefix of the query. -/
theorem lookup_matched_pre_of_inv {T : Type} (t : pathTree T) (hinv : treeInv t)
    (q s : List Char) (v : T) (h : t.Lookup q = some (s, v)) : s <+: q := by
  rw [Lookup_eq_resultOf] at h
  cases hm : pathTreeNode.lookupAux t.root q none with
  | none =>
    rw [hm] at h
    simp [resultOf] at h
  | some m =>
    rw [hm] at h
    have hpath : m.path = s := by
      cases hv : m.value with
      | none => simp [resultOf, hv] at h
      | some w =>
        simp only [resultOf, hv] at h
        injection h with h1
        exact congrArg Prod.fst h1
    rcases lookupAux_visited q t.root none m hm with ⟨k, hk⟩ | habs
    · have h1 := hinv _ m hk
      have h2 := joinPath_take_pre (pathComponents q) k
      have h3 := joinComponents_pre q
      rw [hpath] at h1
      exact preTrans h1 (preTrans h2 h3)
    · cases habs

/-! ## The spec-side description of Lookup (§4.2) -/

/-- From the spec's words: the nodes visited by the Lookup walk — the
root, then one node per consumed component, stopping when the path is
exhausted or the next component has no corresponding child.  The final
node reached is included. -/
def specVisited {T : Type} (n : pathTreeNode T) (p : List Char) :
    List (pathTreeNode T) :=
  if hp : p = [] then [n]
  else
    match findChild n.children (pathTakeFirst p).1 with
    | none => [n]
    | some c => n :: specVisited c (pathTakeFirst p).2
termination_by p.length
decreasing_by exact takeFirst_snd_lt p hp

theorem specVisited_nil {T : Type} (n : pathTreeNode T) :
    specVisited n [] = [n] := by
  rw [specVisited]
  simp

theorem specVisited_cons {T : Type} (n : pathTreeNode T) (p : List Char)
    (hp : p ≠ []) :
    specVisited n p =
      (match findChild n.children (pathTakeFirst p).1 with
       | none => [n]
       | some c => n :: specVisited c (pathTakeFirst p).2) := by
  rw [specVisited]
  simp [hp]

/-- From the spec's words: the best match is the deepest visited node
carrying an explicit value (each such node overwrites the previous
best); the result is its full path and value, else `found = false`. -/
def lookupSpec {T : Type} (t : pathTree T) (p : List Char) :
    Option (List Char × T) :=
  match ((specVisited t.root p).filter (fun m => m.value.isSome)).getLast? with
  | none => none
  | some m =>
    match m.value with
    | none => none
    | some v => some (m.path, v)

theorem getLast?_cons_ne {α : Type} (b : α) (l : List α) :
    (b :: l).getLast? ≠ none := by
  induction l generalizing b with
  | nil => simp
  | cons c l' ih =>
    rw [List.getLast?_cons_cons]
    exact ih c

theorem getLast?_cons_oAlt {α : Type} (a : α) (l : List α) :
    (a :: l).getLast? = oAlt l.getLast? (some a) := by
  cases l with
  | nil => rfl
  | cons b l' =>
    rw [List.getLast?_cons_cons]
    cases hbl : (b :: l').getLast? with
    | none => exact absurd hbl (getLast?_cons_ne b l')
    | some x => rfl

theorem oAlt_none_right {α : Type} (a : Option α) : oAlt a none = a := by
  cases a <;> rfl

/-- The Go lookup loop computes exactly the spec's best match: the last
valued node of the visited chain. -/
theorem lookupAux_eq_visited {T : Type} (n : pathTreeNode T) (p : List Char) :
    pathTreeNode.lookupAux n p none =
      ((specVisited n p).filter (fun m => m.value.isSome)).getLast? := by
  by_cases hp : p = []
  · subst hp
    rw [lookupAux_nil, specVisited_nil]
    by_cases hv : n.value.isSome <;> simp [hv]
  · rw [lookupAux_cons n p none hp, specVisited_cons n p hp]
    cases hfc : findChild n.children (pathTakeFirst p).1 with
    | none =>
      by_cases hv : n.value.isSome <;> simp [hv]
    | some c =>
      dsimp only
      rw [lookupAux_acc (pathTakeFirst p).2 c
        (if n.value.isSome then some n else none)]
      rw [lookupAux_eq_visited c (pathTakeFirst p).2]
      by_cases hv : n.value.isSome
      · rw [List.filter_cons_of_pos (by simpa using hv)]
        rw [getLast?_cons_oAlt]
        rw [if_pos hv]
      · rw [List.filter_cons_of_neg (by simpa using hv)]
        rw [if_neg hv, oAlt_none_right]
termination_by p.length
decreasing_by exact takeFirst_snd_lt p hp

/-- `pathTree.Lookup` coincides with the spec-side description on every
tree. -/
theorem Lookup_eq_lookupSpec {T : Type} (t : pathTree T) (p : List Char) :
    t.Lookup p = lookupSpec t p := by
  rw [Lookup_eq_resultOf, lookupSpec, lookupAux_eq_visited]
  cases ((specVisited t.root p).filter (fun m => m.value.isSome)).getLast? with
  | none => rfl
  | some m => rfl

/-! ## The result map of ListByPath -/

theorem oAlt_assoc {α : Type} (a b c : Option α) :
    oAlt (oAlt a b) c = oAlt a (oAlt b c) := by
  cases a <;> rfl

theorem oAlt_map {α β : Type} (f : α → β) (a b : Option α) :
    (oAlt a b).map f = oAlt (a.map f) (b.map f) := by
  cases a <;> rfl

/-- The last value inserted for a key: the key's final entry in the
traversal order. -/
def lastValue {T : Type} (l : List (List Char × T)) (q : List Char) : Option T :=
  ((l.filter (fun e => decide (e.1 = q))).getLast?).map (·.2)

/-- The number of entries carrying a key. -/
def keyCount {T : Type} (l : List (List Char × T)) (q : List Char) : Nat :=
  (l.filter (fun e => decide (e.1 = q))).length

/-- Inserting into the map and then looking up. -/
theorem lookupA_mapInsert {T : Type} (m : List (List Char × T))
    (k : List Char) (v : T) (q : List Char) :
    lookupA (mapInsert m k v) q = if k = q then some v else lookupA m q := by
  induction m with
  | nil =>
    by_cases h : k = q
    · rw [mapInsert, if_pos h, lookupA,
        List.find?_cons_of_pos _ (by simpa using h)]
      rfl
    · rw [mapInsert, if_neg h, lookupA,
        List.find?_cons_of_neg _ (by simpa using h)]
      rfl
  | cons e es ih =>
    by_cases he : e.1 = k
    · rw [mapInsert, if_pos he]
      by_cases h : k = q
      · rw [if_pos h, lookupA, List.find?_cons_of_pos _ (by simpa using h)]
        rfl
      · rw [if_neg h, lookupA, List.find?_cons_of_neg _ (by simpa using h),
          lookupA, List.find?_cons_of_neg _ (by simp [he]; exact h)]
    · rw [mapInsert, if_neg he]
      by_cases heq : e.1 = q
      · have h : ¬k = q := fun hk => he (by rw [hk, heq])
        rw [if_neg h, lookupA, List.find?_cons_of_pos _ (by simpa using heq),
          lookupA, List.find?_cons_of_pos _ (by simpa using heq)]
      · rw [lookupA, List.find?_cons_of_neg _ (by simpa using heq)]
        have hl : (List.find? (fun e => decide (e.1 = q)) (mapInsert es k v)).map
            (fun x => x.2) = lookupA (mapInsert es k v) q := rfl
        rw [hl, ih]
        by_cases h : k = q
        · rw [if_pos h, if_pos h]
        · rw [if_neg h, if_neg h]
          show lookupA es q = lookupA (e :: es) q
          rw [lookupA, lookupA, List.find?_cons_of_neg _ (by simpa using heq)]

theorem lastValue_nil {T : Type} (q : List Char) :
    lastValue ([] : List (List Char × T)) q = none := rfl

theorem lastValue_cons {T : Type} (e : List Char × T) (es : List (List Char × T))
    (q : List Char) :
    lastValue (e :: es) q =
      (if e.1 = q then oAlt (lastValue es q) (some e.2) else lastValue es q) := by
  by_cases he : e.1 = q
  · rw [if_pos he, lastValue, List.filter_cons_of_pos (by simpa using he),
      getLast?_cons_oAlt, oAlt_map]
    rfl
  · rw [if_neg he, lastValue, List.filter_cons_of_neg (by simpa using he)]
    rfl

/-- Looking up in a map built by successive inserts: the last entry for
the key wins, falling back to the initial map. -/
theorem lookupA_foldl_insert {T : Type} (l : List (List Char × T)) :
    ∀ (m : List (List Char × T)) (q : List Char),
    lookupA (l.foldl (fun m e => mapInsert m e.1 e.2) m) q =
      oAlt (lastValue l q) (lookupA m q) := by
  induction l with
  | nil =>
    intro m q
    rw [List.foldl_nil, lastValue_nil, oAlt_none]
  | cons e es ih =>
    intro m q
    rw [List.foldl_cons, ih (mapInsert m e.1 e.2) q, lookupA_mapInsert,
      lastValue_cons]
    by_cases he : e.1 = q
    · rw [if_pos he, if_pos he, oAlt_assoc, oAlt_some]
    · rw [if_neg he, if_neg he]

/-- Lookup in the built map is the key's last traversal entry. -/
theorem lookupA_buildMap {T : Type} (l : List (List Char × T)) (q : List Char) :
    lookupA (buildMap l) q = lastValue l q := by
  rw [buildMap, lookupA_foldl_insert l [] q]
  rw [show lookupA ([] : List (List Char × T)) q = none from rfl, oAlt_none_right]

theorem getLast?_mem_own {α : Type} {l : List α} {a : α}
    (h : l.getLast? = some a) : a ∈ l := by
  induction l with
  | nil => cases h
  | cons b l' ih =>
    cases l' with
    | nil =>
      have hb : b = a := by
        simpa using h
      subst hb
      exact List.mem_singleton_self b
    | cons c l'' =>
      rw [List.getLast?_cons_cons] at h
      exact List.mem_cons_of_mem b (ih h)

/-- A member of a list of length at most one is the whole list. -/
theorem mem_of_len_le_one {α : Type} {l : List α} {a : α} (ha : a ∈ l)
    (hl : l.length ≤ 1) : l = [a] := by
  cases l with
  | nil => cases ha
  | cons b l' =>
    cases l' with
    | nil =>
      rcases List.mem_singleton.mp ha with h
      rw [h]
    | cons c l'' => simp at hl

/-- With at most one entry for the key, the last-entry semantics of the
map agrees with plain membership. -/
theorem lastValue_of_unique {T : Type} (l : List (List Char × T))
    (q : List Char) (v : T) (hu : keyCount l q ≤ 1) :
    lastValue l q = some v ↔ (q, v) ∈ l := by
  constructor
  · intro h
    obtain ⟨e, he, hev⟩ : ∃ e, (l.filter (fun e => decide (e.1 = q))).getLast? =
        some e ∧ e.2 = v := by
      rw [lastValue] at h
      cases hg : (l.filter (fun e => decide (e.1 = q))).getLast? with
      | none => rw [hg] at h; cases h
      | some e =>
        rw [hg] at h
        exact ⟨e, rfl, by simpa using h⟩
    have hmem := getLast?_mem_own he
    have hkey : e.1 = q := by simpa using List.of_mem_filter hmem
    have hin : e ∈ l := List.mem_of_mem_filter hmem
    have : e = (q, v) := by
      cases e with
      | mk a b =>
        simp only at hkey hev
        rw [hkey, hev]
    exact this ▸ hin
  · intro h
    have hf : (q, v) ∈ l.filter (fun e => decide (e.1 = q)) :=
      List.mem_filter.mpr ⟨h, by simp⟩
    have hl : l.filter (fun e => decide (e.1 = q)) = [(q, v)] :=
      mem_of_len_le_one hf hu
    rw [lastValue, hl]
    rfl

/-! ## Well-formed trees: children maps have unique names -/

mutual
/-- A node is well formed when its children carry pairwise distinct
names (they model a Go map keyed by name) and are themselves well
formed. -/
def wfNode {T : Type} : pathTreeNode T → Prop
  | .mk _ _ _ ch => (ch.map pathTreeNode.name).Nodup ∧ wfList ch
/-- `wfNode` over a list of nodes. -/
def wfList {T : Type} : List (pathTreeNode T) → Prop
  | [] => True
  | c :: cs => wfNode c ∧ wfList cs
end

theorem wfList_mem {T : Type} {ch : List (pathTreeNode T)} (hwl : wfList ch)
    {c : pathTreeNode T} (hc : c ∈ ch) : wfNode c := by
  induction ch with
  | nil => cases hc
  | cons d ds ih =>
    rcases List.mem_cons.mp hc with h1 | h2
    · subst h1
      exact hwl.1
    · exact ih hwl.2 h2

/-- In a duplicate-free children map, every child is found under its
own name. -/
theorem findChild_of_mem_nodup {T : Type} {ch : List (pathTreeNode T)}
    (hnd : (ch.map pathTreeNode.name).Nodup) {c : pathTreeNode T} (hc : c ∈ ch) :
    findChild ch c.name = some c := by
  induction ch with
  | nil => cases hc
  | cons d ds ih =>
    have hnd' : (∀ x ∈ ds, ¬x.name = d.name) ∧
        (ds.map pathTreeNode.name).Nodup := by
      simpa using hnd
    rcases List.mem_cons.mp hc with h1 | h2
    · subst h1
      rw [findChild, List.find?_cons_of_pos _ (by simp)]
    · have hd : ¬d.name = c.name := fun he => hnd'.1 c h2 he.symm
      rw [findChild, List.find?_cons_of_neg _ (by simpa using hd)]
      exact ih hnd'.2 h2

theorem findChild_none_not_mem {T : Type} {ch : List (pathTreeNode T)}
    {h : List Char} (hfc : findChild ch h = none) :
    h ∉ ch.map pathTreeNode.name := by
  intro hmem
  obtain ⟨c, hc, hcn⟩ := List.mem_map.mp hmem
  have hnp := List.find?_eq_none.mp hfc c hc
  simp [hcn] at hnp

theorem upsert_names_found {T : Type} (ch : List (pathTreeNode T))
    (h : List Char) (x : pathTreeNode T) (hx : x.name = h)
    (c : pathTreeNode T) (hfc : findChild ch h = some c) :
    (upsertChild ch h x).map pathTreeNode.name = ch.map pathTreeNode.name := by
  induction ch with
  | nil => simp [findChild] at hfc
  | cons d ds ih =>
    by_cases hd : d.name = h
    · rw [upsertChild, if_pos hd, List.map_cons, List.map_cons, hx, hd]
    · rw [findChild, List.find?_cons_of_neg _ (by simpa using hd)] at hfc
      rw [upsertChild, if_neg hd, List.map_cons, List.map_cons, ih hfc]

theorem upsert_names_missing {T : Type} (ch : List (pathTreeNode T))
    (h : List Char) (x : pathTreeNode T) (hx : x.name = h)
    (hfc : findChild ch h = none) :
    (upsertChild ch h x).map pathTreeNode.name =
      ch.map pathTreeNode.name ++ [h] := by
  induction ch with
  | nil => simp [upsertChild, hx]
  | cons d ds ih =>
    by_cases hd : d.name = h
    · rw [findChild, List.find?_cons_of_pos _ (by simpa using hd)] at hfc
      cases hfc
    · rw [findChild, List.find?_cons_of_neg _ (by simpa using hd)] at hfc
      rw [upsertChild, if_neg hd, List.map_cons, List.map_cons, ih hfc,
        List.cons_append]

theorem wfList_upsert {T : Type} (ch : List (pathTreeNode T)) (h : List Char)
    (x : pathTreeNode T) (hwl : wfList ch) (hx : wfNode x) :
    wfList (upsertChild ch h x) := by
  induction ch with
  | nil => exact ⟨hx, trivial⟩
  | cons d ds ih =>
    by_cases hd : d.name = h
    · rw [upsertChild, if_pos hd]
      exact ⟨hx, hwl.2⟩
    · rw [upsertChild, if_neg hd]
      exact ⟨hwl.1, ih hwl.2⟩

/-- `set` keeps the tree well formed. -/
theorem wf_setAux {T : Type} (orig : List Char) (cur : Nat)
    (n : pathTreeNode T) (p : List Char) (v : T) (hwf : wfNode n) :
    wfNode (pathTreeNode.setAux orig cur n p v) := by
  by_cases hp : p = []
  · subst hp
    rw [setAux_nil]
    cases n with
    | mk nm pa val ch => exact hwf
  · cases n with
    | mk nm pa val ch =>
      rw [setAux_cons _ _ _ _ _ hp]
      simp only [pathTreeNode.name_mk, pathTreeNode.path_mk,
        pathTreeNode.value_mk, pathTreeNode.children_mk]
      have hch : (ch.map pathTreeNode.name).Nodup := hwf.1
      have hwl : wfList ch := hwf.2
      have hwfstart : wfNode (childStart ch (pathTakeFirst p).1 orig
          (nextCur cur (pathTakeFirst p).1)) := by
        rw [childStart]
        cases hfc : findChild ch (pathTakeFirst p).1 with
        | some c => exact wfList_mem hwl (findChild_mem hfc)
        | none => exact ⟨List.nodup_nil, trivial⟩
      have hwfx := wf_setAux orig (nextCur cur (pathTakeFirst p).1) _
        (pathTakeFirst p).2 v hwfstart
      have hxname : (pathTreeNode.setAux orig (nextCur cur (pathTakeFirst p).1)
          (childStart ch (pathTakeFirst p).1 orig
            (nextCur cur (pathTakeFirst p).1)) (pathTakeFirst p).2 v).name =
          (pathTakeFirst p).1 := by
        rw [setAux_name, childStart_name]
      constructor
      · cases hfc : findChild ch (pathTakeFirst p).1 with
        | some c =>
          rw [upsert_names_found ch _ _ hxname c hfc]
          exact hch
        | none =>
          rw [upsert_names_missing ch _ _ hxname hfc]
          refine List.Nodup.append hch (List.nodup_singleton _) ?_
          intro a ha hb
          exact findChild_none_not_mem hfc (by rwa [List.mem_singleton.mp hb] at ha)
      · exact wfList_upsert ch _ _ hwl hwfx
termination_by p.length
decreasing_by exact takeFirst_snd_lt p hp

/-- Whole-tree well-formedness. -/
def treeWf {T : Type} (t : pathTree T) : Prop := wfNode t.root

theorem treeWf_empty {T : Type} : treeWf (pathTree.empty : pathTree T) :=
  ⟨List.nodup_nil, trivial⟩

theorem treeWf_Set {T : Type} (t : pathTree T) (p : List Char) (v : T)
    (h : treeWf t) : treeWf (t.Set p v) :=
  wf_setAux p 0 t.root p v h

theorem treeWf_build {T : Type} (ops : List (List Char × T)) :
    treeWf (buildTree ops) := by
  suffices h : ∀ t : pathTree T,
      treeWf t → treeWf (ops.foldl (fun t e => t.Set e.1 e.2) t) by
    exact h pathTree.empty treeWf_empty
  induction ops with
  | nil =>
    intro t ht
    simpa using ht
  | cons e es ih =>
    intro t ht
    simp only [List.foldl_cons]
    exact ih _ (treeWf_Set t e.1 e.2 ht)

/-! ## Collected entries versus subtree nodes -/

theorem collectNode_mk {T : Type} (nm pa : List Char) (val : Option T)
    (ch : List (pathTreeNode T)) :
    collectNode (pathTreeNode.mk nm pa val ch) =
      (match val with
       | some v => [(pa, v)]
       | none => []) ++ collectList ch := rfl

theorem collectList_nil {T : Type} :
    collectList ([] : List (pathTreeNode T)) = [] := rfl

theorem collectList_cons {T : Type} (c : pathTreeNode T)
    (cs : List (pathTreeNode T)) :
    collectList (c :: cs) = collectNode c ++ collectList cs := rfl

mutual
/-- The number of nodes of a subtree. -/
def sizeNode {T : Type} : pathTreeNode T → Nat
  | .mk _ _ _ ch => 1 + sizeList ch
/-- The total number of nodes below a list of roots. -/
def sizeList {T : Type} : List (pathTreeNode T) → Nat
  | [] => 0
  | c :: cs => sizeNode c + sizeList cs
end

theorem sizeNode_mk {T : Type} (nm pa : List Char) (val : Option T)
    (ch : List (pathTreeNode T)) :
    sizeNode (pathTreeNode.mk nm pa val ch) = 1 + sizeList ch := rfl

theorem sizeNode_mem_le {T : Type} {ch : List (pathTreeNode T)}
    {c : pathTreeNode T} (hc : c ∈ ch) : sizeNode c ≤ sizeList ch := by
  induction ch with
  | nil => cases hc
  | cons d ds ih =>
    have hstep : sizeList (d :: ds) = sizeNode d + sizeList ds := rfl
    rcases List.mem_cons.mp hc with h1 | h2
    · subst h1
      omega
    · have := ih h2
      omega

theorem collectList_mem_ex {T : Type} {ch : List (pathTreeNode T)}
    {e : List Char × T} (h : e ∈ collectList ch) :
    ∃ c ∈ ch, e ∈ collectNode c := by
  induction ch with
  | nil =>
    rw [collectList_nil] at h
    cases h
  | cons c cs ih =>
    rw [collectList_cons] at h
    rcases List.mem_append.mp h with h1 | h2
    · exact ⟨c, List.mem_cons_self c cs, h1⟩
    · obtain ⟨d, hd, he⟩ := ih h2
      exact ⟨d, List.mem_cons_of_mem c hd, he⟩

theorem collectList_mem_sub {T : Type} {ch : List (pathTreeNode T)}
    {c : pathTreeNode T} {e : List Char × T}
    (hc : c ∈ ch) (he : e ∈ collectNode c) : e ∈ collectList ch := by
  induction ch with
  | nil => cases hc
  | cons d ds ih =>
    rw [collectList_cons]
    rcases List.mem_cons.mp hc with h1 | h2
    · subst h1
      exact List.mem_append.mpr (Or.inl he)
    · exact List.mem_append.mpr (Or.inr (ih h2))

/-- Every valued node of the subtree contributes its entry to the
collected list. -/
theorem nodeAt_mem_collect {T : Type} (cs : List (List Char))
    (n m : pathTreeNode T) (v : T)
    (h : nodeAt n cs = some m) (hv : m.value = some v) :
    (m.path, v) ∈ collectNode n := by
  induction cs generalizing n with
  | nil =>
    have hm : n = m := by
      injection h
    subst hm
    cases n with
    | mk nm pa val ch =>
      rw [collectNode_mk]
      simp only [pathTreeNode.value_mk] at hv
      subst hv
      simp
  | cons c cs' ih =>
    cases n with
    | mk nm pa val ch =>
      simp only [nodeAt, pathTreeNode.children_mk] at h
      cases hfc : findChild ch c with
      | none =>
        rw [hfc] at h
        exact Option.noConfusion h
      | some d =>
        rw [hfc] at h
        have hin := ih d h
        rw [collectNode_mk]
        exact List.mem_append.mpr
          (Or.inr (collectList_mem_sub (findChild_mem hfc) hin))

/-- In a well-formed tree, every collected entry comes from a valued
node of the subtree. -/
theorem collect_mem_nodeAt {T : Type} (n : pathTreeNode T) (hwf : wfNode n)
    (q : List Char) (v : T) (h : (q, v) ∈ collectNode n) :
    ∃ cs m, nodeAt n cs = some m ∧ m.path = q ∧ m.value = some v := by
  cases hn : n with
  | mk nm pa val ch =>
    rw [hn] at h hwf
    rw [collectNode_mk] at h
    rcases List.mem_append.mp h with h1 | h2
    · cases val with
      | none => simp at h1
      | some w =>
        have he : (q, v) = (pa, w) := List.mem_singleton.mp h1
        have hq : q = pa := congrArg Prod.fst he
        have hv : v = w := congrArg Prod.snd he
        exact ⟨[], pathTreeNode.mk nm pa (some w) ch, rfl, by simp [hq],
          by simp [hv]⟩
    · obtain ⟨c, hc, he⟩ := collectList_mem_ex h2
      have hwfc : wfNode c := wfList_mem hwf.2 hc
      obtain ⟨cs, m, h1, hqq, hvv⟩ := collect_mem_nodeAt c hwfc q v he
      refine ⟨c.name :: cs, m, ?_, hqq, hvv⟩
      simp only [nodeAt, pathTreeNode.children_mk]
      rw [findChild_of_mem_nodup hwf.1 hc]
      exact h1
termination_by sizeNode n
decreasing_by
  simp_wf
  have h1 : sizeNode n = 1 + sizeList ch := by
    rw [hn, sizeNode_mk]
  have h2 := sizeNode_mem_le hc
  omega

/-! ## A trailing separator is dropped -/

/-- The incremented counter stays within the original path: the
consumed components join to a prefix of it. -/
theorem nextCur_le_orig (P : List Char) (cs0 : List (List Char))
    (h : List Char) (rest : List (List Char))
    (hcomp : pathComponents P = cs0 ++ h :: rest)
    (cur : Nat) (hcur : cur ≤ (joinPath cs0).length) :
    nextCur cur h ≤ P.length := by
  have h1 : (pathComponents P).take (cs0.length + 1) = cs0 ++ [h] := by
    rw [hcomp]
    exact take_append_cons cs0 h rest
  have h2 := joinPath_take_pre (pathComponents P) (cs0.length + 1)
  rw [h1] at h2
  have h3 := preTrans h2 (joinComponents_pre P)
  have h4 := preLength h3
  have h5 := nextCur_le_join cs0 h cur hcur
  have h6 := preLength (joinPath_take_pre (pathComponents P) (cs0.length + 1))
  omega

theorem childStart_append_slash {T : Type} (ch : List (pathTreeNode T))
    (hd : List Char) (P : List Char) (cur' : Nat) (hle : cur' ≤ P.length) :
    childStart ch hd (P ++ ['/']) cur' = childStart ch hd P cur' := by
  rw [childStart, childStart]
  cases hfc : findChild ch hd with
  | some c => rfl
  | none =>
    dsimp only
    rw [takeAppLe P ['/'] cur' hle]

/-- Writing at `p ++ "/"` builds exactly the same tree as writing at
`p`, for `p` non-empty and not already ending in a separator: the
splitter yields an empty remainder and the loop stops. -/
theorem setAux_append_slash {T : Type} (P : List Char) (cs0 : List (List Char))
    (cur : Nat) (n : pathTreeNode T) (r : List Char) (v : T)
    (hcomp : pathComponents P = cs0 ++ pathComponents r)
    (hcur : cur ≤ (joinPath cs0).length)
    (hr : r ≠ []) (hrlast : ∀ u : List Char, r ≠ u ++ ['/']) :
    pathTreeNode.setAux (P ++ ['/']) cur n (r ++ ['/']) v =
      pathTreeNode.setAux P cur n r v := by
  have hcompr : pathComponents P = cs0 ++ (pathTakeFirst r).1 ::
      pathComponents (pathTakeFirst r).2 := by
    rw [hcomp, pathComponents_cons r hr]
  have hle : nextCur cur (pathTakeFirst r).1 ≤ P.length :=
    nextCur_le_orig P cs0 (pathTakeFirst r).1 _ hcompr cur hcur
  by_cases hs : '/' ∈ r
  · obtain ⟨hsplit, _⟩ := takeFirst_split r hs
    have htail_ne : (pathTakeFirst r).2 ≠ [] := by
      intro h0
      rw [h0] at hsplit
      exact hrlast (pathTakeFirst r).1 hsplit
    have htail_last : ∀ u : List Char, (pathTakeFirst r).2 ≠ u ++ ['/'] := by
      intro u hu
      refine hrlast ((pathTakeFirst r).1 ++ '/' :: u) ?_
      calc r = (pathTakeFirst r).1 ++ '/' :: (pathTakeFirst r).2 := hsplit
        _ = (pathTakeFirst r).1 ++ '/' :: (u ++ ['/']) := by rw [hu]
        _ = ((pathTakeFirst r).1 ++ '/' :: u) ++ ['/'] := by simp
    have happ : pathTakeFirst (r ++ ['/']) =
        ((pathTakeFirst r).1, (pathTakeFirst r).2 ++ ['/']) :=
      takeFirst_append r ['/'] hs
    have hne1 : r ++ ['/'] ≠ [] := by simp
    rw [setAux_cons _ _ _ _ _ hne1, setAux_cons _ _ _ _ _ hr, happ]
    have hcomp' : pathComponents P = (cs0 ++ [(pathTakeFirst r).1]) ++
        pathComponents (pathTakeFirst r).2 := by
      rw [hcompr]
      simp
    have hcur' : nextCur cur (pathTakeFirst r).1 ≤
        (joinPath (cs0 ++ [(pathTakeFirst r).1])).length :=
      nextCur_le_join cs0 (pathTakeFirst r).1 cur hcur
    rw [childStart_append_slash n.children (pathTakeFirst r).1 P
      (nextCur cur (pathTakeFirst r).1) hle]
    rw [setAux_append_slash P (cs0 ++ [(pathTakeFirst r).1])
      (nextCur cur (pathTakeFirst r).1) _ (pathTakeFirst r).2 v hcomp' hcur'
      htail_ne htail_last]
  · have h1 : pathTakeFirst (r ++ ['/']) = (r, []) :=
      takeFirst_append_slash_no_slash r hs
    have h2 : pathTakeFirst r = (r, []) := takeFirst_no_slash r hs
    have hne1 : r ++ ['/'] ≠ [] := by simp
    rw [setAux_cons _ _ _ _ _ hne1, setAux_cons _ _ _ _ _ hr, h1, h2]
    have hle' : nextCur cur r ≤ P.length := by
      have h3 : (pathTakeFirst r).1 = r := by rw [h2]
      rw [← h3]
      exact hle
    rw [childStart_append_slash n.children r P (nextCur cur r) hle']
    rw [setAux_nil, setAux_nil]
termination_by r.length
decreasing_by exact takeFirst_snd_lt r hr

/-- `Set(p ++ "/")` and `Set(p)` build the same tree. -/
theorem Set_append_slash {T : Type} (t : pathTree T) (p : List Char) (v : T)
    (hp : p ≠ []) (hlast : ∀ u : List Char, p ≠ u ++ ['/']) :
    t.Set (p ++ ['/']) v = t.Set p v := by
  show (⟨pathTreeNode.setAux (p ++ ['/']) 0 t.root (p ++ ['/']) v,
      t.countHint + 1⟩ : pathTree T) =
    ⟨pathTreeNode.setAux p 0 t.root p v, t.countHint + 1⟩
  rw [setAux_append_slash p [] 0 t.root p v rfl (Nat.zero_le _) hp hlast]

/-- `Lookup(p ++ "/")` and `Lookup(p)` agree. -/
theorem Lookup_append_slash {T : Type} (t : pathTree T) (p : List Char)
    (hp : p ≠ []) (hlast : ∀ u : List Char, p ≠ u ++ ['/']) :
    t.Lookup (p ++ ['/']) = t.Lookup p := by
  rw [Lookup_eq_resultOf, Lookup_eq_resultOf, lookupAux_eq_comps,
    lookupAux_eq_comps, pathComponents_append_slash p hp hlast]

/-- `ListByPath(p ++ "/")` and `ListByPath(p)` agree. -/
theorem ListByPath_append_slash {T : Type} (t : pathTree T) (p : List Char)
    (hp : p ≠ []) (hlast : ∀ u : List Char, p ≠ u ++ ['/']) :
    t.ListByPath (p ++ ['/']) = t.ListByPath p := by
  unfold pathTree.ListByPath pathTree.locate
  rw [if_neg (show ¬p ++ ['/'] = [] by simp), if_neg hp, get_eq_nodeAt,
    get_eq_nodeAt, pathComponents_append_slash p hp hlast]

/-! ## Termination: fuel-bounded interpreters -/

/-- The lookup loop with an explicit step bound; `none` means the
bound was hit before the loop finished. -/
def lookupFuel {T : Type} : Nat → pathTreeNode T → List Char →
    Option (pathTreeNode T) → Option (Option (pathTreeNode T))
  | 0, _, _, _ => none
  | fuel + 1, n, p, last =>
    let last' := if n.value.isSome then some n else last
    if p = [] then some last'
    else
      match findChild n.children (pathTakeFirst p).1 with
      | none => some last'
      | some c => lookupFuel fuel c (pathTakeFirst p).2 last'

/-- The set loop with an explicit step bound. -/
def setFuel {T : Type} : Nat → List Char → Nat → pathTreeNode T →
    List Char → T → Option (pathTreeNode T)
  | 0, _, _, _, _, _ => none
  | fuel + 1, orig, cur, n, p, v =>
    if p = [] then some (pathTreeNode.mk n.name n.path (some v) n.children)
    else
      match setFuel fuel orig (nextCur cur (pathTakeFirst p).1)
        (childStart n.children (pathTakeFirst p).1 orig
          (nextCur cur (pathTakeFirst p).1)) (pathTakeFirst p).2 v with
      | none => none
      | some sub =>
        some (pathTreeNode.mk n.name n.path n.value
          (upsertChild n.children (pathTakeFirst p).1 sub))

/-- The get loop with an explicit step bound. -/
def getFuel {T : Type} : Nat → pathTreeNode T → List Char →
    Option (Option (pathTreeNode T))
  | 0, _, _ => none
  | fuel + 1, n, p =>
    if p = [] then some (some n)
    else
      match findChild n.children (pathTakeFirst p).1 with
      | none => some none
      | some c => getFuel fuel c (pathTakeFirst p).2

/-- One step per consumed component suffices: the lookup loop finishes
within `|p| + 1` iterations. -/
theorem lookupFuel_adequate {T : Type} (fuel : Nat) (p : List Char)
    (n : pathTreeNode T) (last : Option (pathTreeNode T))
    (hfuel : p.length < fuel) :
    lookupFuel fuel n p last = some (pathTreeNode.lookupAux n p last) := by
  induction fuel generalizing p n last with
  | zero => omega
  | succ f ih =>
    by_cases hp : p = []
    · subst hp
      rw [lookupAux_nil]
      rfl
    · rw [lookupAux_cons n p last hp]
      simp only [lookupFuel, if_neg hp]
      cases hfc : findChild n.children (pathTakeFirst p).1 with
      | none => rfl
      | some c =>
        refine ih (pathTakeFirst p).2 c _ ?_
        have := takeFirst_snd_lt p hp
        omega

/-- The set loop finishes within `|p| + 1` iterations. -/
theorem setFuel_adequate {T : Type} (fuel : Nat) (p orig : List Char)
    (cur : Nat) (n : pathTreeNode T) (v : T) (hfuel : p.length < fuel) :
    setFuel fuel orig cur n p v = some (pathTreeNode.setAux orig cur n p v) := by
  induction fuel generalizing p orig cur n with
  | zero => omega
  | succ f ih =>
    by_cases hp : p = []
    · subst hp
      rw [setAux_nil]
      rfl
    · rw [setAux_cons _ _ _ _ _ hp]
      simp only [setFuel, if_neg hp]
      rw [ih (pathTakeFirst p).2 orig (nextCur cur (pathTakeFirst p).1) _
        (by have := takeFirst_snd_lt p hp; omega)]

/-- The get loop finishes within `|p| + 1` iterations. -/
theorem getFuel_adequate {T : Type} (fuel : Nat) (p : List Char)
    (n : pathTreeNode T) (hfuel : p.length < fuel) :
    getFuel fuel n p = some (pathTreeNode.get n p) := by
  induction fuel generalizing p n with
  | zero => omega
  | succ f ih =>
    by_cases hp : p = []
    · subst hp
      rw [get_nil]
      rfl
    · rw [get_cons n p hp]
      simp only [getFuel, if_neg hp]
      cases hfc : findChild n.children (pathTakeFirst p).1 with
      | none => rfl
      | some c =>
        refine ih (pathTakeFirst p).2 c ?_
        have := takeFirst_snd_lt p hp
        omega

mutual
/-- The enumeration visits each node once: the number of collected
entries is bounded by the number of nodes of the subtree. -/
theorem collect_length_le {T : Type} : ∀ n : pathTreeNode T,
    (collectNode n).length ≤ sizeNode n
  | .mk nm pa val ch => by
    rw [collectNode_mk, sizeNode_mk, List.length_append]
    have h2 := collectList_length_le ch
    cases val with
    | none =>
      dsimp only
      simp only [List.length_nil]
      omega
    | some w =>
      dsimp only
      simp only [List.length_cons, List.length_nil]
      omega
/-- `collect_length_le` over a list of roots. -/
theorem collectList_length_le {T : Type} : ∀ ch : List (pathTreeNode T),
    (collectList ch).length ≤ sizeList ch
  | [] => by
    rw [collectList_nil]
    exact Nat.le_refl 0
  | c :: cs => by
    rw [collectList_cons, List.length_append]
    have h1 := collect_length_le c
    have h2 := collectList_length_le cs
    have hstep : sizeList (c :: cs) = sizeNode c + sizeList cs := rfl
    omega
end

/-! ## Evaluation bridges for concrete inputs -/

/-- Fuel-bounded component splitting (structurally recursive, so the
kernel can evaluate it on concrete paths). -/
def componentsFuel : Nat → List Char → Option (List (List Char))
  | 0, _ => none
  | fuel + 1, p =>
    if p = [] then some []
    else
      match componentsFuel fuel (pathTakeFirst p).2 with
      | none => none
      | some cs => some ((pathTakeFirst p).1 :: cs)

theorem componentsFuel_adequate (fuel : Nat) (p : List Char)
    (h : p.length < fuel) : componentsFuel fuel p = some (pathComponents p) := by
  induction fuel generalizing p with
  | zero => omega
  | succ f ih =>
    by_cases hp : p = []
    · subst hp
      rw [pathComponents_nil]
      rfl
    · rw [pathComponents_cons p hp]
      simp only [componentsFuel, if_neg hp]
      rw [ih (pathTakeFirst p).2 (by have := takeFirst_snd_lt p hp; omega)]

/-- Evaluation rule: a concrete component split certified by the fuel
interpreter. -/
theorem pathComponents_eval (p : List Char) (cs : List (List Char))
    (h : componentsFuel (p.length + 1) p = some cs) : pathComponents p = cs := by
  have h2 := componentsFuel_adequate (p.length + 1) p (Nat.lt_succ_self _)
  rw [h] at h2
  exact (Option.some_inj.mp h2).symm

/-- Fuel-based tree construction from an assignment list. -/
def buildFuelAux {T : Type} : pathTree T → List (List Char × T) →
    Option (pathTree T)
  | t, [] => some t
  | t, e :: rest =>
    match setFuel (e.1.length + 1) e.1 0 t.root e.1 e.2 with
    | none => none
    | some r => buildFuelAux ⟨r, t.countHint + 1⟩ rest

/-- Fuel-based `buildTree`. -/
def buildFuel {T : Type} (ops : List (List Char × T)) : Option (pathTree T) :=
  buildFuelAux pathTree.empty ops

theorem buildFuelAux_eq {T : Type} (ops : List (List Char × T)) :
    ∀ t : pathTree T,
    buildFuelAux t ops = some (ops.foldl (fun t e => t.Set e.1 e.2) t) := by
  induction ops with
  | nil =>
    intro t
    rfl
  | cons e rest ih =>
    intro t
    rw [List.foldl_cons]
    show (match setFuel (e.1.length + 1) e.1 0 t.root e.1 e.2 with
      | none => none
      | some r => buildFuelAux ⟨r, t.countHint + 1⟩ rest) = _
    rw [setFuel_adequate (e.1.length + 1) e.1 e.1 0 t.root e.2
      (Nat.lt_succ_self _)]
    exact ih (t.Set e.1 e.2)

theorem buildFuel_eq {T : Type} (ops : List (List Char × T)) :
    buildFuel ops = some (buildTree ops) :=
  buildFuelAux_eq ops pathTree.empty

/-- Any observation of a built tree can be certified through the fuel
interpreter. -/
theorem build_obs_via_fuel {T α : Type} (f : pathTree T → α)
    (ops : List (List Char × T)) :
    (match buildFuel ops with
     | none => none
     | some t => some (f t)) = some (f (buildTree ops)) := by
  rw [buildFuel_eq]

/-- `Lookup` through the fuel interpreter. -/
theorem Lookup_via_fuel {T : Type} (t : pathTree T) (q : List Char) :
    (lookupFuel (q.length + 1) t.root q none).map resultOf =
      some (t.Lookup q) := by
  rw [lookupFuel_adequate (q.length + 1) q t.root none (Nat.lt_succ_self _),
    Option.map_some', Lookup_eq_resultOf]

/-- `Lookup` of a built tree through the fuel interpreters. -/
theorem buildLookup_via_fuel {T : Type} (ops : List (List Char × T))
    (q : List Char) :
    (match buildFuel ops with
     | none => none
     | some t => (lookupFuel (q.length + 1) t.root q none).map resultOf) =
      some ((buildTree ops).Lookup q) := by
  rw [buildFuel_eq]
  exact Lookup_via_fuel (buildTree ops) q

/-- `locate` through the fuel interpreter. -/
theorem locate_via_fuel {T : Type} (t : pathTree T) (p : List Char) :
    (if p = [] then some (some t.root) else getFuel (p.length + 1) t.root p) =
      some (t.locate p) := by
  by_cases hp : p = []
  · subst hp
    rfl
  · rw [if_neg hp, getFuel_adequate (p.length + 1) p t.root (Nat.lt_succ_self _),
      pathTree.locate, if_neg hp]

/-- `locate` of a built tree through the fuel interpreters. -/
theorem buildLocate_via_fuel {T : Type} (ops : List (List Char × T))
    (p : List Char) :
    (match buildFuel ops with
     | none => none
     | some t =>
       if p = [] then some (some t.root) else getFuel (p.length + 1) t.root p) =
      some ((buildTree ops).locate p) := by
  rw [buildFuel_eq]
  exact locate_via_fuel (buildTree ops) p

/-- `ListByPath` through the fuel interpreter. -/
theorem ListByPath_via_fuel {T : Type} (t : pathTree T) (q : List Char) :
    (if q = [] then some (buildMap (collectNode t.root))
     else
       match getFuel (q.length + 1) t.root q with
       | none => none
       | some none => some []
       | some (some n) => some (buildMap (collectNode n))) =
      some (t.ListByPath q) := by
  by_cases hq : q = []
  · subst hq
    rfl
  · rw [if_neg hq, getFuel_adequate (q.length + 1) q t.root (Nat.lt_succ_self _)]
    rw [pathTree.ListByPath, pathTree.locate, if_neg hq]
    cases hg : pathTreeNode.get t.root q with
    | none => rfl
    | some n => rfl

/-- `ListByPath` of a built tree through the fuel interpreters. -/
theorem buildList_via_fuel {T : Type} (ops : List (List Char × T))
    (q : List Char) :
    (match buildFuel ops with
     | none => none
     | some t =>
       if q = [] then some (buildMap (collectNode t.root))
       else
         match getFuel (q.length + 1) t.root q with
         | none => none
         | some none => some []
         | some (some n) => some (buildMap (collectNode n))) =
      some ((buildTree ops).ListByPath q) := by
  rw [buildFuel_eq]
  exact ListByPath_via_fuel (buildTree ops) q

/-- Appending one more assignment to a built tree. -/
theorem buildTree_snoc {T : Type} (ops : List (List Char × T))
    (e : List Char × T) :
    buildTree (ops ++ [e]) = (buildTree ops).Set e.1 e.2 := by
  rw [buildTree, List.foldl_append]
  rfl

/-- A hit of the last-entry map semantics is an entry of the list. -/
theorem lastValue_mem {T : Type} (l : List (List Char × T)) (q : List Char)
    (v : T) (h : lastValue l q = some v) : (q, v) ∈ l := by
  obtain ⟨e, he, hev⟩ : ∃ e, (l.filter (fun e => decide (e.1 = q))).getLast? =
      some e ∧ e.2 = v := by
    rw [lastValue] at h
    cases hg : (l.filter (fun e => decide (e.1 = q))).getLast? with
    | none =>
      rw [hg] at h
      cases h
    | some e =>
      rw [hg] at h
      exact ⟨e, rfl, by simpa using h⟩
  have hmem := getLast?_mem_own he
  have hkey : e.1 = q := by simpa using List.of_mem_filter hmem
  have hin : e ∈ l := List.mem_of_mem_filter hmem
  have heq : e = (q, v) := by
    cases e with
    | mk a b =>
      simp only at hkey hev
      rw [hkey, hev]
  exact heq ▸ hin

/-- Subtrees of a well-formed tree are well formed. -/
theorem wf_nodeAt {T : Type} {n m : pathTreeNode T} (hwf : wfNode n)
    {cs : List (List Char)} (h : nodeAt n cs = some m) : wfNode m := by
  induction cs generalizing n with
  | nil =>
    have h1 : n = m := by injection h
    exact h1 ▸ hwf
  | cons c cs' ih =>
    cases n with
    | mk nm pa val ch =>
      simp only [nodeAt, pathTreeNode.children_mk] at h
      cases hfc : findChild ch c with
      | none =>
        rw [hfc] at h
        exact Option.noConfusion h
      | some d =>
        rw [hfc] at h
        exact ih (wfList_mem hwf.2 (findChild_mem hfc)) h

/-! ## The claims -/

/-- C1: For every tree built by a finite sequence of Assign (`Set`)
calls and every query path, `Lookup` walks from the root consuming one
component at a time, records each visited node — the root and the final
node reached included — that carries an explicit value as the current
best match, overwriting any earlier one so the deepest such node wins;
at a missing child it stops descending but keeps the best match so far;
it returns the best match's full (stored) path, its value and
`found = true`, or `found = false` if no visited node carried a value.
(`lookupSpec` is the walk as the spec words it.) -/
theorem C1_lookup_walk {T : Type} (ops : List (List Char × T)) (q : List Char) :
    (buildTree ops).Lookup q = lookupSpec (buildTree ops) q :=
  Lookup_eq_lookupSpec (buildTree ops) q

/-- C2: evaluation of the code at the failing input of the claim.
After `Assign("/foo", 1)`, `Lookup("/foo")` returns matched path
`"/fo"` — not `"/foo"` as the exact-match invariant requires — because
`set` fails to count the separator following an empty first component
when computing `origPath[:curPathLen]`. -/
theorem C2_code_eval :
    (buildTree [(str "/foo", 1)]).Lookup (str "/foo") = some (str "/fo", 1) := by
  have h1 := buildLookup_via_fuel [(str "/foo", 1)] (str "/foo")
  have h2 : (match buildFuel [(str "/foo", 1)] with
     | none => none
     | some t => (lookupFuel ((str "/foo").length + 1) t.root
         (str "/foo") none).map resultOf) = some (some (str "/fo", 1)) := by
    decide
  exact Option.some_inj.mp (h1.symm.trans h2)

/-- C3: evaluation of the code at the failing input of the claim.
After `Assign("/foo", 1)` the node at components `["", "foo"]` stores
`fullPath = "/fo"`, while its parent (the node at `[""]`) stores
`fullPath = ""`; the invariant demands the child's fullPath be the
parent's fullPath joined with its name by `'/'`, i.e. `"/foo"`, and
`"/fo" ≠ "/foo"`. -/
theorem C3_code_eval :
    ((nodeAt (buildTree [(str "/foo", 1)]).root [[], str "foo"]).map
      pathTreeNode.path = some (str "/fo")) ∧
    ((nodeAt (buildTree [(str "/foo", 1)]).root [[]]).map
      pathTreeNode.path = some (str "")) ∧
    str "/fo" ≠ str "" ++ '/' :: str "foo" := by
  refine ⟨?_, ?_, by decide⟩
  · have h1 := build_obs_via_fuel
      (fun t => (nodeAt t.root [[], str "foo"]).map pathTreeNode.path)
      [(str "/foo", 1)]
    have h2 : (match buildFuel [(str "/foo", 1)] with
       | none => none
       | some t => some ((nodeAt t.root [[], str "foo"]).map
           pathTreeNode.path)) = some (some (str "/fo")) := by
      decide
    exact Option.some_inj.mp (h1.symm.trans h2)
  · have h1 := build_obs_via_fuel
      (fun t => (nodeAt t.root [[]]).map pathTreeNode.path)
      [(str "/foo", 1)]
    have h2 : (match buildFuel [(str "/foo", 1)] with
       | none => none
       | some t => some ((nodeAt t.root [[]]).map pathTreeNode.path)) =
        some (some (str "")) := by
      decide
    exact Option.some_inj.mp (h1.symm.trans h2)

/-- C4 counterexample: the claim says `"foo/"` denotes a path distinct
from `"foo"`, with a node named after the empty component.  In fact the
splitter returns an empty remainder for a trailing separator and the
loop stops, so `Set` on `"foo/"` and on `"foo"` build the very same
tree. -/
theorem C4_counterexample :
    pathTree.empty.Set (str "foo/") 1 = pathTree.empty.Set (str "foo") (1 : Nat) := by
  have h : str "foo/" = str "foo" ++ ['/'] := by decide
  rw [h]
  exact Set_append_slash pathTree.empty (str "foo") 1 (by decide)
    ((not_endsep_iff (str "foo")).mp (by decide))

/-- C4 (amended): splitting is component-by-component, left to right,
with `'/'` as delimiter; a leading or doubled separator yields an
empty-string component that Assign, Lookup and ListByPath treat as an
ordinary, distinct component name — `"/foo"` and `"foo//bar"` denote
paths distinct from `"foo"` and `"foo/bar"`, with a node named after
the empty component, never an error — but a single trailing separator
yields an empty remainder that the loops drop, so `"foo/"` denotes the
same path as `"foo"`. -/
theorem C4_amended :
    (∀ p : List Char, pathComponents ('/' :: p) = [] :: pathComponents p) ∧
    (∀ a b : List Char, a ≠ [] → '/' ∉ a →
      pathComponents (a ++ '/' :: '/' :: b) = a :: [] :: pathComponents b) ∧
    (∀ p : List Char, p ≠ [] → (∀ u : List Char, p ≠ u ++ ['/']) →
      pathComponents (p ++ ['/']) = pathComponents p) ∧
    ((buildTree [(str "/foo", 1)]).Lookup (str "foo") = none) ∧
    ((buildTree [(str "foo", 1)]).Lookup (str "/foo") = none) ∧
    ((buildTree [(str "foo//bar", 1)]).Lookup (str "foo/bar") = none) ∧
    ((nodeAt (buildTree [(str "/foo", 1)]).root [[]]).map pathTreeNode.name =
      some []) := by
  refine ⟨pathComponents_leading, pathComponents_doubled,
    pathComponents_append_slash, ?_, ?_, ?_, ?_⟩
  · have h1 := buildLookup_via_fuel [(str "/foo", 1)] (str "foo")
    have h2 : (match buildFuel [(str "/foo", 1)] with
       | none => none
       | some t => (lookupFuel ((str "foo").length + 1) t.root
           (str "foo") none).map resultOf) = some none := by
      decide
    exact Option.some_inj.mp (h1.symm.trans h2)
  · have h1 := buildLookup_via_fuel [(str "foo", 1)] (str "/foo")
    have h2 : (match buildFuel [(str "foo", 1)] with
       | none => none
       | some t => (lookupFuel ((str "/foo").length + 1) t.root
           (str "/foo") none).map resultOf) = some none := by
      decide
    exact Option.some_inj.mp (h1.symm.trans h2)
  · have h1 := buildLookup_via_fuel [(str "foo//bar", 1)] (str "foo/bar")
    have h2 : (match buildFuel [(str "foo//bar", 1)] with
       | none => none
       | some t => (lookupFuel ((str "foo/bar").length + 1) t.root
           (str "foo/bar") none).map resultOf) = some none := by
      decide
    exact Option.some_inj.mp (h1.symm.trans h2)
  · have h1 := build_obs_via_fuel
      (fun t => (nodeAt t.root [[]]).map pathTreeNode.name) [(str "/foo", 1)]
    have h2 : (match buildFuel [(str "/foo", 1)] with
       | none => none
       | some t => some ((nodeAt t.root [[]]).map pathTreeNode.name)) =
        some (some []) := by
      decide
    exact Option.some_inj.mp (h1.symm.trans h2)

/-- C4 witness: the amended general clauses at a concrete input — a
doubled separator inserts an empty component, and a trailing separator
is dropped. -/
theorem C4_witness :
    pathComponents (str "foo" ++ '/' :: '/' :: str "bar") =
      str "foo" :: [] :: pathComponents (str "bar") ∧
    pathComponents (str "foo" ++ ['/']) = pathComponents (str "foo") :=
  ⟨C4_amended.2.1 (str "foo") (str "bar") (by decide) (by decide),
   C4_amended.2.2.1 (str "foo") (by decide) (fun u => by
     intro hu
     have : (str "foo").length = (u ++ ['/']).length := by rw [hu]
     simp at this
     have h2 : (str "foo").getLast? = some '/' := by
       rw [hu]
       exact List.getLast?_concat u
     exact absurd h2 (by decide))⟩

/-- C5 counterexample: the claim says `ListByPath("")` contains every
explicitly assigned value in the whole tree.  After `Assign("", 1)` and
`Assign("/", 2)` the root (path `""`, value 1) and its child named `""`
(stored path also `""`, value 2) collide in the path-keyed result map:
the value 1 is assigned at the root yet absent from the result. -/
theorem C5_counterexample :
    valueAt (buildTree [(str "", 1), (str "/", 2)]) [] = some 1 ∧
    (buildTree [(str "", 1), (str "/", 2)]).ListByPath (str "") =
      [(str "", 2)] ∧
    (str "", 1) ∉ (buildTree [(str "", 1), (str "/", 2)]).ListByPath (str "") := by
  have hb : (buildTree [(str "", 1), (str "/", 2)]).ListByPath (str "") =
      [(str "", 2)] := by
    have h1 := buildList_via_fuel [(str "", 1), (str "/", 2)] (str "")
    have h2 : (match buildFuel [(str "", 1), (str "/", 2)] with
       | none => none
       | some t =>
         if str "" = [] then some (buildMap (collectNode t.root))
         else
           match getFuel ((str "").length + 1) t.root (str "") with
           | none => none
           | some none => some []
           | some (some n) => some (buildMap (collectNode n))) =
        some [(str "", 2)] := by
      decide
    exact Option.some_inj.mp (h1.symm.trans h2)
  refine ⟨?_, hb, ?_⟩
  · have h1 := build_obs_via_fuel (fun t => valueAt t [])
      [(str "", 1), (str "/", 2)]
    have h2 : (match buildFuel [(str "", 1), (str "/", 2)] with
       | none => none
       | some t => some (valueAt t [])) = some (some 1) := by
      decide
    exact Option.some_inj.mp (h1.symm.trans h2)
  · rw [hb]
    decide

/-- C5 (amended): `ListByPath(p)` locates the node exactly at `p` by
exact component-by-component matching (the root when `p` is empty, with
no nearest-ancestor fallback); if no node exists there the result is
empty.  The result maps stored full paths to explicit values: every
entry comes from a valued node of that subtree (pure intermediates are
omitted), and for a full path carried by at most one valued node of the
subtree, the entry is present exactly when such a node exists — but
when several valued nodes share a full path (possible only through
empty components) only one of their values survives, so the "every
explicitly assigned value" clause holds only under that uniqueness
proviso. -/
theorem C5_amended {T : Type} (ops : List (List Char × T)) (p q : List Char)
    (v : T) :
    ((buildTree ops).locate p =
      (if p = [] then some (buildTree ops).root
       else nodeAt (buildTree ops).root (pathComponents p))) ∧
    ((buildTree ops).locate p = none → (buildTree ops).ListByPath p = []) ∧
    (∀ n, (buildTree ops).locate p = some n →
      ((lookupA ((buildTree ops).ListByPath p) q = some v →
         ∃ cs m, nodeAt n cs = some m ∧ m.path = q ∧ m.value = some v) ∧
       (keyCount (collectNode n) q ≤ 1 →
         (lookupA ((buildTree ops).ListByPath p) q = some v ↔
           ∃ cs m, nodeAt n cs = some m ∧ m.path = q ∧ m.value = some v)))) := by
  refine ⟨?_, ?_, ?_⟩
  · rw [pathTree.locate]
    by_cases hp : p = []
    · rw [if_pos hp, if_pos hp]
    · rw [if_neg hp, if_neg hp, get_eq_nodeAt]
  · intro h
    rw [pathTree.ListByPath, h]
  · intro n hn
    have hlist : (buildTree ops).ListByPath p = buildMap (collectNode n) := by
      rw [pathTree.ListByPath, hn]
    have hwfn : wfNode n := by
      rw [pathTree.locate] at hn
      by_cases hp : p = []
      · rw [if_pos hp] at hn
        have h1 : (buildTree ops).root = n := by injection hn
        exact h1 ▸ treeWf_build ops
      · rw [if_neg hp, get_eq_nodeAt] at hn
        exact wf_nodeAt (treeWf_build ops) hn
    constructor
    · intro hl
      rw [hlist, lookupA_buildMap] at hl
      exact collect_mem_nodeAt n hwfn q v (lastValue_mem _ _ _ hl)
    · intro hu
      rw [hlist, lookupA_buildMap, lastValue_of_unique (collectNode n) q v hu]
      constructor
      · intro hmem
        exact collect_mem_nodeAt n hwfn q v hmem
      · rintro ⟨cs, m, h1, h2, h3⟩
        have h4 := nodeAt_mem_collect cs n m v h1 h3
        rw [h2] at h4
        exact h4

/-- C5 witness: the amended claim at concrete inputs — with entries
`foo=10`, `foo/bar=20`, `bar=30`, `ListByPath("bar/baz")` is empty
because no node exists there. -/
theorem C5_witness :
    (buildTree [(str "foo", 10), (str "foo/bar", 20), (str "bar", 30)]).ListByPath
      (str "bar/baz") = [] := by
  have hnone : (buildTree [(str "foo", 10), (str "foo/bar", 20),
      (str "bar", 30)]).locate (str "bar/baz") = none := by
    have h1 := buildLocate_via_fuel
      [(str "foo", 10), (str "foo/bar", 20), (str "bar", 30)] (str "bar/baz")
    have h1' := congrArg (Option.map Option.isSome) h1
    rw [Option.map_some'] at h1'
    have h2 : Option.map Option.isSome
        (match buildFuel [(str "foo", 10), (str "foo/bar", 20),
          (str "bar", 30)] with
         | none => none
         | some t =>
           if str "bar/baz" = [] then some (some t.root)
           else getFuel ((str "bar/baz").length + 1) t.root (str "bar/baz")) =
        some false := by
      decide
    have h3 := Option.some_inj.mp (h1'.symm.trans h2)
    cases hl : (buildTree [(str "foo", 10), (str "foo/bar", 20),
        (str "bar", 30)]).locate (str "bar/baz") with
    | none => rfl
    | some x =>
      rw [hl] at h3
      simp at h3
  exact (C5_amended [(str "foo", 10), (str "foo/bar", 20), (str "bar", 30)]
    (str "bar/baz") (str "") 0).2.1 hnone

/-- C6 counterexample: the claim says that after `Assign(p, v)` every
other path's Lookup result is unchanged.  Re-assigning `"foo"` from 1
to 2 changes `Lookup("foo/bar")` — a different path — from
`("foo", 1, true)` to `("foo", 2, true)`, because inheritance is
resolved at lookup time. -/
theorem C6_counterexample :
    ((buildTree [(str "foo", 1)]).Set (str "foo") 2).Lookup (str "foo/bar") ≠
      (buildTree [(str "foo", 1)]).Lookup (str "foo/bar") ∧
    (buildTree [(str "foo", 1)]).Lookup (str "foo/bar") = some (str "foo", 1) ∧
    ((buildTree [(str "foo", 1)]).Set (str "foo") 2).Lookup (str "foo/bar") =
      some (str "foo", 2) := by
  have hsnoc : (buildTree [(str "foo", 1)]).Set (str "foo") 2 =
      buildTree [(str "foo", 1), (str "foo", 2)] := by
    rw [show [(str "foo", 1), (str "foo", 2)] =
      [(str "foo", 1)] ++ [(str "foo", 2)] from rfl, buildTree_snoc]
  have h1 : (buildTree [(str "foo", 1)]).Lookup (str "foo/bar") =
      some (str "foo", 1) := by
    have ha := buildLookup_via_fuel [(str "foo", 1)] (str "foo/bar")
    have hb : (match buildFuel [(str "foo", 1)] with
       | none => none
       | some t => (lookupFuel ((str "foo/bar").length + 1) t.root
           (str "foo/bar") none).map resultOf) = some (some (str "foo", 1)) := by
      decide
    exact Option.some_inj.mp (ha.symm.trans hb)
  have h2 : (buildTree [(str "foo", 1), (str "foo", 2)]).Lookup
      (str "foo/bar") = some (str "foo", 2) := by
    have ha := buildLookup_via_fuel [(str "foo", 1), (str "foo", 2)]
      (str "foo/bar")
    have hb : (match buildFuel [(str "foo", 1), (str "foo", 2)] with
       | none => none
       | some t => (lookupFuel ((str "foo/bar").length + 1) t.root
           (str "foo/bar") none).map resultOf) = some (some (str "foo", 2)) := by
      decide
    exact Option.some_inj.mp (ha.symm.trans hb)
  refine ⟨?_, h1, by rw [hsnoc]; exact h2⟩
  rw [hsnoc, h1, h2]
  decide

/-- C6 (amended): `Assign(p, v)` changes the explicit value only at
`p`: the node at `p` carries `v` afterwards, the explicit value stored
at every other component address — ancestor, descendant or unrelated —
is unchanged, and when the node at `p` already exists the tree shape is
unchanged (re-assignment replaces the value only).  The Lookup result
of any path `q` is unchanged unless its best match is the node at `p`,
in which case it reports that node's stored path with the new value —
so paths inheriting from `p` observe the new value. -/
theorem C6_amended {T : Type} (t : pathTree T) (p q : List Char) (v : T) :
    (valueAt (t.Set p v) (pathComponents p) = some v) ∧
    (∀ cs, cs ≠ pathComponents p → valueAt (t.Set p v) cs = valueAt t cs) ∧
    ((nodeAt t.root (pathComponents p)).isSome →
      stripNode (t.Set p v).root = stripNode t.root) ∧
    ((t.Set p v).Lookup q = t.Lookup q ∨
      ∃ m, nodeAt (t.Set p v).root (pathComponents p) = some m ∧
        (t.Set p v).Lookup q = some (m.path, v)) := by
  refine ⟨?_, ?_, ?_, ?_⟩
  · obtain ⟨m, hm, hv⟩ := nodeAt_setAux_self p 0 t.root p v
    show (nodeAt (pathTreeNode.setAux p 0 t.root p v)
      (pathComponents p)).bind pathTreeNode.value = some v
    rw [hm]
    simpa using hv
  · intro cs hcs
    exact nodeAt_setAux_other p 0 t.root p v cs hcs
  · intro hex
    exact strip_setAux p 0 t.root p v hex
  · rw [Lookup_eq_resultOf, Lookup_eq_resultOf]
    exact lookupAux_setAux p 0 t.root p q v none

/-- C6 witness: the amended claim at a concrete input — re-assigning
the existing path `"foo"` leaves the tree shape unchanged. -/
theorem C6_witness :
    stripNode ((buildTree [(str "foo", 1)]).Set (str "foo") 2).root =
      stripNode (buildTree [(str "foo", 1)]).root := by
  refine (C6_amended (buildTree [(str "foo", 1)]) (str "foo") (str "") 2).2.2.1 ?_
  have h1 := build_obs_via_fuel
    (fun t => (nodeAt t.root (pathComponents (str "foo"))).isSome)
    [(str "foo", 1)]
  have hc : pathComponents (str "foo") = [str "foo"] :=
    pathComponents_eval _ _ (by decide)
  rw [hc] at h1 ⊢
  have h2 : (match buildFuel [(str "foo", 1)] with
     | none => none
     | some t => some ((nodeAt t.root [str "foo"]).isSome)) = some true := by
    decide
  have h3 := Option.some_inj.mp (h1.symm.trans h2)
  exact h3 ▸ rfl

/-- C7: absence is never a fault: on the empty (zero-value) tree,
`Lookup(p)` returns `found = false` (`none`) for every path `p`
including the empty string, and `ListByPath("")` returns an empty
mapping; the operations are total functions signalling absence only
through these results, never through an error. -/
theorem C7_empty_absence {T : Type} :
    (∀ p : List Char, (pathTree.empty : pathTree T).Lookup p = none) ∧
    (pathTree.empty : pathTree T).ListByPath (str "") = [] := by
  constructor
  · intro p
    rw [Lookup_eq_resultOf]
    have h : pathTreeNode.lookupAux (pathTree.empty : pathTree T).root p
        none = none := by
      by_cases hp : p = []
      · subst hp
        rw [lookupAux_nil]
        rfl
      · rw [lookupAux_cons _ p none hp]
        have hfc : findChild (pathTree.empty : pathTree T).root.children
            (pathTakeFirst p).1 = none := rfl
        rw [hfc]
        rfl
    rw [h]
    rfl
  · rfl

/-- C8: every operation is total: the component-consuming loops
strictly shrink the remaining path each step, so the fuel-bounded
interpreters for the `set`, `lookup` and `get` loops finish within
`|path| + 1` iterations on every tree, and the enumeration traversal
emits at most one entry per node of the finite tree. -/
theorem C8_total {T : Type} :
    (∀ p : List Char, p ≠ [] → (pathTakeFirst p).2.length < p.length) ∧
    (∀ (t : pathTree T) (p : List Char),
      lookupFuel (p.length + 1) t.root p none = some (t.root.lookup p)) ∧
    (∀ (t : pathTree T) (p : List Char) (v : T),
      setFuel (p.length + 1) p 0 t.root p v = some (t.root.set p v)) ∧
    (∀ (t : pathTree T) (p : List Char),
      getFuel (p.length + 1) t.root p = some (t.root.get p)) ∧
    (∀ n : pathTreeNode T, (collectNode n).length ≤ sizeNode n) := by
  refine ⟨takeFirst_snd_lt, ?_, ?_, ?_, collect_length_le⟩
  · intro t p
    exact lookupFuel_adequate (p.length + 1) p t.root none (Nat.lt_succ_self _)
  · intro t p v
    exact setFuel_adequate (p.length + 1) p p 0 t.root v (Nat.lt_succ_self _)
  · intro t p
    exact getFuel_adequate (p.length + 1) p t.root (Nat.lt_succ_self _)

/-- C8 witness: the loop measure at a concrete input. -/
theorem C8_witness :
    (pathTakeFirst (str "a/b")).2.length < (str "a/b").length :=
  (C8_total (T := Nat)).1 (str "a/b") (by decide)

/-- C9: for every tree built by a finite sequence of Assign calls and
every query path, a successful Lookup returns a matched path that is a
string prefix of the query (so its length never exceeds the query's). -/
theorem C9_matched_is_pre {T : Type} (ops : List (List Char × T))
    (q s : List Char) (v : T)
    (h : (buildTree ops).Lookup q = some (s, v)) : s <+: q :=
  lookup_matched_pre_of_inv (buildTree ops) (treeInv_build ops) q s v h

/-- C9 witness: after `Assign("foo", 1)`, looking up `"foo/bar"`
matches `"foo"`, a string prefix of the query. -/
theorem C9_witness : str "foo" <+: str "foo/bar" := by
  have h : (buildTree [(str "foo", 1)]).Lookup (str "foo/bar") =
      some (str "foo", 1) := by
    have h1 := buildLookup_via_fuel [(str "foo", 1)] (str "foo/bar")
    have h2 : (match buildFuel [(str "foo", 1)] with
       | none => none
       | some t => (lookupFuel ((str "foo/bar").length + 1) t.root
           (str "foo/bar") none).map resultOf) = some (some (str "foo", 1)) := by
      decide
    exact Option.some_inj.mp (h1.symm.trans h2)
  exact C9_matched_is_pre [(str "foo", 1)] (str "foo/bar") (str "foo") 1 h

/-- C10: for every non-empty path `p` not already ending in `'/'`, the
structure treats `p` and `p ++ "/"` identically: `Set` builds the very
same tree, and `Lookup` and `ListByPath` return the same results —
the splitter yields an empty tail for a trailing separator and the
traversal loops stop on an empty remaining path. -/
theorem C10_trailing_slash {T : Type} (t : pathTree T) (p : List Char) (v : T)
    (hp : p ≠ []) (hlast : p.getLast? ≠ some '/') :
    t.Set (p ++ ['/']) v = t.Set p v ∧
    t.Lookup (p ++ ['/']) = t.Lookup p ∧
    t.ListByPath (p ++ ['/']) = t.ListByPath p := by
  have h := (not_endsep_iff p).mp hlast
  exact ⟨Set_append_slash t p v hp h, Lookup_append_slash t p hp h,
    ListByPath_append_slash t p hp h⟩

/-- C10 witness: `Set` at `"foo" ++ "/"` and at `"foo"` build the same
tree. -/
theorem C10_witness :
    pathTree.empty.Set (str "foo" ++ ['/']) (1 : Nat) =
      pathTree.empty.Set (str "foo") 1 :=
  (C10_trailing_slash pathTree.empty (str "foo") 1 (by decide) (by decide)).1
